import Mathlib

/-!
Shallow embedding of the butterfly-prolog compiler core
(src/heap.rs, src/ast.rs, src/compiler.rs) and proofs about it.
-/

set_option maxRecDepth 4000

/-! ## Heap (src/heap.rs) -/

inductive HeapTag where
  | Variable
  | Unify
  | Reference
  | Constant
  | Number
  | Arity
  | Uninitialized
deriving DecidableEq, Repr

structure HeapEntry where
  tag : HeapTag
  data : Nat
deriving DecidableEq, Repr

def HeapEntry.empty : HeapEntry := ⟨HeapTag.Uninitialized, 0⟩

def HeapEntry.is_var_or_unify (e : HeapEntry) : Bool :=
  e.tag == HeapTag.Variable || e.tag == HeapTag.Unify

structure Heap where
  buffer : List HeapEntry
deriving DecidableEq, Repr

def Heap.new : Heap := ⟨[]⟩

def Heap.len (h : Heap) : Nat := h.buffer.length

/-- alloc(size): resize buffer to len + size with Uninitialized entries, return old len. -/
def Heap.alloc (h : Heap) (size : Nat) : Heap × Nat :=
  (⟨h.buffer ++ List.replicate size HeapEntry.empty⟩, h.buffer.length)

def Heap.write (h : Heap) (index : Nat) (entry : HeapEntry) : Heap :=
  ⟨h.buffer.set index entry⟩

def Heap.read (h : Heap) (index : Nat) : HeapEntry :=
  h.buffer.getD index HeapEntry.empty

/-! ## AST (src/ast.rs) -/

inductive SimpleTerm where
  | Atom (s : String)
  | Variable (s : String)
deriving DecidableEq, Repr

mutual

inductive Term where
  | Compound (name : SimpleTerm) (parameters : TermList)
  | Simple (t : SimpleTerm)

inductive TermList where
  | nil : TermList
  | cons (head : Term) (tail : TermList) : TermList

end

/-- parameters.len() of a Rust Vec, on the embedded parameter list. -/
def TermList.length : TermList → Nat
  | .nil => 0
  | .cons _ rest => rest.length + 1

/-- The first j parameters (Vec slice), used to locate nested blocks. -/
def TermList.take : Nat → TermList → TermList
  | 0, _ => .nil
  | _, .nil => .nil
  | j + 1, .cons p rest => .cons p (TermList.take j rest)

/-- Indexing into a parameter list. -/
def TermList.getIdx : TermList → Nat → Option Term
  | .nil, _ => none
  | .cons p _, 0 => some p
  | .cons _ rest, j + 1 => rest.getIdx j

structure Clause where
  head : Term
  body : List Term

structure Query where
  sub_queries : List Term

structure Program where
  clauses : List Clause
  queries : List Query

/-! ## SymbolTable (src/compiler.rs, lines 326-349).
The Rust HashMap is modelled as an association list with first-match lookup;
insert prepends (matching HashMap overwrite semantics under first-match lookup). -/

def lookupAssoc (m : List (String × Nat)) (k : String) : Option Nat :=
  match m with
  | [] => none
  | (s, v) :: rest => if s = k then some v else lookupAssoc rest k

structure SymbolTable where
  symbols : List String
  symbols_to_indeces : List (String × Nat)
deriving DecidableEq, Repr

def SymbolTable.new : SymbolTable := ⟨[], []⟩

def SymbolTable.push (t : SymbolTable) (symbol : String) : SymbolTable × Nat :=
  let symbols := t.symbols ++ [symbol]
  let index := symbols.length - 1
  (⟨symbols, (symbol, index) :: t.symbols_to_indeces⟩, index)

def SymbolTable.get (t : SymbolTable) (index : Nat) : String :=
  t.symbols.getD index ""

def SymbolTable.get_index (t : SymbolTable) (symbol : String) : Option Nat :=
  lookupAssoc t.symbols_to_indeces symbol

/-- The interning pattern of compile_simple_term_no_alloc (compiler.rs 185-188):
return the existing id or push the symbol for a fresh one. -/
def SymbolTable.intern (t : SymbolTable) (symbol : String) : SymbolTable × Nat :=
  match t.get_index symbol with
  | some prev_index => (t, prev_index)
  | none => t.push symbol

/-! ## Descriptors and Spine (src/compiler.rs) -/

structure ClauseDescriptor where
  base : Nat
  length : Nat
  neck : Nat
  terms : List HeapEntry
  head_subterms : List HeapEntry
deriving DecidableEq, Repr

instance : Inhabited ClauseDescriptor := ⟨⟨0, 0, 0, [], []⟩⟩

structure QueryDescriptor where
  base : Nat
  length : Nat
  terms : List HeapEntry
deriving DecidableEq, Repr

structure Spine where
  base : Nat
  trail_top : Nat
  goals : List HeapEntry
  dereferenced_elements : List HeapEntry
  unifiable_clauses : List Nat
  num_unified_clauses : Nat
deriving DecidableEq, Repr

def Spine.new (base trail_top : Nat) (goals : List HeapEntry)
    (unifiable_clauses : List Nat) (num_unified_clauses : Nat) : Spine :=
  ⟨base, trail_top, goals, [], unifiable_clauses, num_unified_clauses⟩

/-! ## Compiler state (src/compiler.rs, lines 6-18) -/

structure Compiler where
  heap : Heap
  clauses : List ClauseDescriptor
  symbol_table : SymbolTable
  current_clause_variables : List (String × Nat)
  queries : List QueryDescriptor
  spines : List Spine
  trail : List Nat
deriving DecidableEq, Repr

def Compiler.new : Compiler :=
  ⟨Heap.new, [], SymbolTable.new, [], [], [], []⟩

/-- compiler.rs 154-161: top-level simple terms get a synthetic Arity(1) entry. -/
def Compiler.create_arity_entry_for_simple_term (c : Compiler) : Compiler :=
  let pr := c.heap.alloc 1
  { c with heap := pr.1.write pr.2 ⟨HeapTag.Arity, 1⟩ }

/-- compiler.rs 180-206. -/
def Compiler.compile_simple_term_no_alloc (c : Compiler) (term : SimpleTerm)
    (index : Nat) : Compiler :=
  match term with
  | SimpleTerm.Atom atom =>
    let pr := c.symbol_table.intern atom
    { c with symbol_table := pr.1,
             heap := c.heap.write index ⟨HeapTag.Constant, pr.2⟩ }
  | SimpleTerm.Variable v =>
    match lookupAssoc c.current_clause_variables v with
    | some variable_index =>
      { c with heap := c.heap.write index ⟨HeapTag.Unify, variable_index⟩ }
    | none =>
      { c with heap := c.heap.write index ⟨HeapTag.Variable, index⟩,
               current_clause_variables := (v, index) :: c.current_clause_variables }

/-- compiler.rs 170-174. -/
def Compiler.compile_simple_term (c : Compiler) (term : SimpleTerm) : Compiler × Nat :=
  let pr := c.heap.alloc 1
  (Compiler.compile_simple_term_no_alloc { c with heap := pr.1 } term pr.2, pr.2)

mutual

/-- One iteration of the parameter loop of compile_compound_term
(compiler.rs 224-239): a simple parameter is written into the parent slot,
a compound parameter is compiled elsewhere (inlined body of
compile_compound_term, compiler.rs 211-242) and the slot gets a Reference. -/
def Compiler.compile_param (c : Compiler) (param : Term) (index : Nat) : Compiler :=
  match param with
  | Term.Simple simple_term =>
    Compiler.compile_simple_term_no_alloc c simple_term index
  | Term.Compound name ps =>
    let arity := ps.length + 1
    let pr := c.heap.alloc (1 + arity)
    let start_index := pr.2
    let c1 := { c with heap := pr.1.write start_index ⟨HeapTag.Arity, arity⟩ }
    let c2 := Compiler.compile_simple_term_no_alloc c1 name (start_index + 1)
    let c3 := Compiler.compile_params c2 ps (start_index + 2)
    { c3 with heap := c3.heap.write index ⟨HeapTag.Reference, start_index⟩ }

/-- The parameter loop of compile_compound_term (compiler.rs 224-239);
index is the heap slot of the next parameter. -/
def Compiler.compile_params (c : Compiler) (parameters : TermList)
    (index : Nat) : Compiler :=
  match parameters with
  | .nil => c
  | .cons param rest =>
    let c := Compiler.compile_param c param index
    Compiler.compile_params c rest (index + 1)

end

/-- compiler.rs 211-242. -/
def Compiler.compile_compound_term (c : Compiler) (name : SimpleTerm)
    (parameters : TermList) : Compiler × Nat :=
  let arity := parameters.length + 1
  let pr := c.heap.alloc (1 + arity)
  let start_index := pr.2
  let c1 := { c with heap := pr.1.write start_index ⟨HeapTag.Arity, arity⟩ }
  let c2 := Compiler.compile_simple_term_no_alloc c1 name (start_index + 1)
  (Compiler.compile_params c2 parameters (start_index + 2), start_index)

/-- compiler.rs 163-168. -/
def Compiler.compile_term (c : Compiler) (term : Term) : Compiler × Nat :=
  match term with
  | Term.Compound name parameters => Compiler.compile_compound_term c name parameters
  | Term.Simple t => Compiler.compile_simple_term c t

/-- compiler.rs 287-289. -/
def Compiler.deref_once (c : Compiler) (pointer : HeapEntry) : HeapEntry :=
  c.heap.read pointer.data

/-- One iteration body of the while loop in deref (compiler.rs 295-306),
iterated with explicit fuel; the loop stops on a non-variable entry or on
the first occurrence of a variable (a fixpoint of deref_once). -/
def Compiler.derefFuel (c : Compiler) (pointer : HeapEntry) (fuel : Nat) : HeapEntry :=
  match fuel with
  | 0 => pointer
  | fuel + 1 =>
    if pointer.is_var_or_unify then
      let dereferenced := c.deref_once pointer
      if dereferenced = pointer then pointer
      else Compiler.derefFuel c dereferenced fuel
    else pointer

/-- deref with enough fuel to cover any chain in the heap. -/
def Compiler.deref (c : Compiler) (pointer : HeapEntry) : HeapEntry :=
  Compiler.derefFuel c pointer (c.heap.len + 1)

/-- compiler.rs 266-282. -/
def Compiler.get_subterms (c : Compiler) (reference : HeapEntry) : List HeapEntry :=
  let start_index := reference.data + 1
  let arity := (c.deref_once reference).data
  (List.range arity).map (fun i =>
    let entry := c.deref (c.heap.read (start_index + i))
    if entry.tag = HeapTag.Reference then c.deref_once entry else entry)

/-- One top-level term of a clause or query (compiler.rs 124-127 and 112-116):
simple terms get a synthetic Arity(1) entry, then the term is compiled. -/
def Compiler.compile_top_term (c : Compiler) (term : Term) : Compiler :=
  let c1 :=
    match term with
    | Term.Simple _ => c.create_arity_entry_for_simple_term
    | _ => c
  (c1.compile_term term).1

/-- The body-goal loop of compile_clause (compiler.rs 122-129), returning the
start index of each goal. -/
def Compiler.compile_body (c : Compiler) (body : List Term) : Compiler × List Nat :=
  match body with
  | [] => (c, [])
  | term :: rest =>
    let term_index := c.heap.len
    let pr := Compiler.compile_body (c.compile_top_term term) rest
    (pr.1, term_index :: pr.2)

/-- compiler.rs 108-147. -/
def Compiler.compile_clause (c : Compiler) (clause : Clause) : Compiler :=
  let c := { c with current_clause_variables := [] }
  let base := c.heap.len
  let c := c.compile_top_term clause.head
  let neck := c.heap.len
  let pr := c.compile_body clause.body
  let length := pr.1.heap.len - base
  let terms := (base :: pr.2).map (fun index => (⟨HeapTag.Reference, index⟩ : HeapEntry))
  let head_subterms := pr.1.get_subterms (terms.getD 0 HeapEntry.empty)
  { pr.1 with clauses := pr.1.clauses ++ [⟨base, length, neck, terms, head_subterms⟩] }

/-- The sub-query loop of compile_query (compiler.rs 247-254). -/
def Compiler.compile_sub_queries (c : Compiler) (sub_queries : List Term) :
    Compiler × List HeapEntry :=
  match sub_queries with
  | [] => (c, [])
  | term :: rest =>
    let term_index := c.heap.len
    let pr := Compiler.compile_sub_queries (c.compile_top_term term) rest
    (pr.1, (⟨HeapTag.Reference, term_index⟩ : HeapEntry) :: pr.2)

/-- compiler.rs 244-261. -/
def Compiler.compile_query (c : Compiler) (query : Query) : Compiler :=
  let base := c.heap.len
  let pr := c.compile_sub_queries query.sub_queries
  let length := pr.1.heap.len - base
  { pr.1 with queries := pr.1.queries ++ [⟨base, length, pr.2⟩] }

/-- compiler.rs 308-323: spines are pushed in reverse order of queries. -/
def Compiler.create_initial_spine (c : Compiler) (queries : List QueryDescriptor) :
    Compiler :=
  let base := c.heap.len
  let unifiable_clauses := (List.range c.clauses.length)
  queries.reverse.foldl
    (fun c query =>
      { c with spines :=
          c.spines ++ [Spine.new base c.trail.length query.terms unifiable_clauses 0] })
    c

/-- compiler.rs 97-106. -/
def Compiler.compile (c : Compiler) (program : Program) : Compiler :=
  let c := program.clauses.foldl Compiler.compile_clause c
  let c := program.queries.foldl Compiler.compile_query c
  c.create_initial_spine c.queries

/-! ## Basic heap lemmas -/

theorem Heap.len_write (h : Heap) (i : Nat) (e : HeapEntry) :
    (h.write i e).len = h.len := by
  simp [Heap.write, Heap.len]

theorem Heap.read_write_self (h : Heap) (i : Nat) (e : HeapEntry) (hi : i < h.len) :
    (h.write i e).read i = e := by
  simp [Heap.write, Heap.read, List.getD, List.getElem?_set, hi]
  simp [Heap.len] at hi
  simp [hi]

theorem Heap.read_write_ne (h : Heap) (i j : Nat) (e : HeapEntry) (hij : i ≠ j) :
    (h.write i e).read j = h.read j := by
  simp [Heap.write, Heap.read, List.getD, List.getElem?_set, hij]

theorem Heap.alloc_snd (h : Heap) (n : Nat) : (h.alloc n).2 = h.len := rfl

theorem Heap.len_alloc (h : Heap) (n : Nat) : (h.alloc n).1.len = h.len + n := by
  simp [Heap.alloc, Heap.len]

theorem Heap.read_alloc_old (h : Heap) (n i : Nat) (hi : i < h.len) :
    (h.alloc n).1.read i = h.read i := by
  simp [Heap.len] at hi
  simp [Heap.alloc, Heap.read, List.getD, List.getElem?_append, hi]

theorem Heap.read_alloc_new (h : Heap) (n i : Nat) (hi : h.len ≤ i) :
    (h.alloc n).1.read i = HeapEntry.empty := by
  simp [Heap.len] at hi
  simp only [Heap.alloc, Heap.read, List.getD, List.get?_eq_getElem?]
  rw [List.getElem?_append_right hi]
  rcases Nat.lt_or_ge (i - h.buffer.length) n with hlt | hge
  · rw [List.getElem?_replicate]
    simp [hlt]
  · rw [List.getElem?_eq_none]
    · rfl
    · simpa using hge

theorem Heap.read_oob (h : Heap) (i : Nat) (hi : h.len ≤ i) :
    h.read i = HeapEntry.empty := by
  simp [Heap.len] at hi
  simp [Heap.read, List.getD, List.getElem?_eq_none hi]

theorem Heap.read_ne_empty_lt (h : Heap) (i : Nat) (hne : h.read i ≠ HeapEntry.empty) :
    i < h.len := by
  by_contra hge
  exact hne (h.read_oob i (Nat.le_of_not_lt hge))

/-! ## Cell accounting: how many heap cells a term occupies -/

mutual

/-- Total heap cells written by compile_term for this term (own block plus
nested compound blocks). -/
def termCells : Term → Nat
  | Term.Compound _ ps => 2 + ps.length + extraCells ps
  | Term.Simple _ => 1

/-- Heap cells a parameter needs beyond its slot in the parent block. -/
def paramExtraCells : Term → Nat
  | Term.Compound _ ps => 2 + ps.length + extraCells ps
  | Term.Simple _ => 0

/-- Heap cells all parameters need beyond their slots in the parent block. -/
def extraCells : TermList → Nat
  | TermList.nil => 0
  | TermList.cons p rest => paramExtraCells p + extraCells rest

end

/-- Heap cells of a top-level term of a clause or query, including the
synthetic Arity(1) entry for simple terms. -/
def cellsOf : Term → Nat
  | Term.Simple _ => 2
  | Term.Compound n ps => termCells (Term.Compound n ps)

/-! ## Invariants of compiled heaps -/

/-- Well-formedness of the heap entry at position i: Variable cells are
self-references, Unify cells point at a self-referencing Variable cell, and
Reference cells point inside the heap. -/
def goodEntry (h : Heap) (i : Nat) : Prop :=
  ((h.read i).tag = HeapTag.Variable → (h.read i).data = i)
  ∧ ((h.read i).tag = HeapTag.Unify →
      h.read (h.read i).data = ⟨HeapTag.Variable, (h.read i).data⟩)
  ∧ ((h.read i).tag = HeapTag.Reference → (h.read i).data < h.len)

def GoodHeap (h : Heap) : Prop := ∀ i, goodEntry h i

/-- Every recorded clause variable points at a self-referencing Variable cell. -/
def MapOK (c : Compiler) : Prop :=
  ∀ x i, lookupAssoc c.current_clause_variables x = some i →
    i < c.heap.len ∧ c.heap.read i = ⟨HeapTag.Variable, i⟩

/-- The non-heap bookkeeping fields that term compilation never touches. -/
def fieldsEq (c c' : Compiler) : Prop :=
  c'.clauses = c.clauses ∧ c'.queries = c.queries ∧ c'.spines = c.spines
  ∧ c'.trail = c.trail

theorem goodEntry_oob (h : Heap) (i : Nat) (hu : h.read i = HeapEntry.empty) :
    goodEntry h i := by
  refine ⟨?_, ?_, ?_⟩ <;> (rw [hu]; intro htag; cases htag)

theorem goodHeap_alloc (h : Heap) (n : Nat) (hg : GoodHeap h) :
    GoodHeap (h.alloc n).1 := by
  intro i
  rcases Nat.lt_or_ge i h.len with hi | hi
  · obtain ⟨h1, h2, h3⟩ := hg i
    unfold goodEntry
    rw [h.read_alloc_old n i hi, Heap.len_alloc]
    refine ⟨h1, ?_, fun ht => Nat.lt_of_lt_of_le (h3 ht) (Nat.le_add_right _ _)⟩
    intro ht
    have h2' := h2 ht
    have hlt : (h.read i).data < h.len := by
      by_contra hge
      rw [h.read_oob _ (Nat.le_of_not_lt hge)] at h2'
      cases h2'
    rw [h.read_alloc_old n _ hlt]
    exact h2'
  · rcases Nat.lt_or_ge i (h.len + n) with hi2 | hi2
    · exact goodEntry_oob _ _ (h.read_alloc_new n i hi)
    · refine goodEntry_oob _ _ ((h.alloc n).1.read_oob i ?_)
      rw [Heap.len_alloc]; exact hi2

theorem goodHeap_write (h : Heap) (i : Nat) (e : HeapEntry)
    (hg : GoodHeap h) (hu : h.read i = HeapEntry.empty)
    (he : e.tag = HeapTag.Arity ∨ e.tag = HeapTag.Constant
      ∨ (e.tag = HeapTag.Reference ∧ e.data < h.len)
      ∨ e = ⟨HeapTag.Variable, i⟩
      ∨ (e.tag = HeapTag.Unify ∧ h.read e.data = ⟨HeapTag.Variable, e.data⟩)) :
    GoodHeap (h.write i e) := by
  intro j
  rcases Nat.lt_or_ge i h.len with hilen | hilen
  swap
  · have heq : h.write i e = h := by
      simp only [Heap.len] at hilen
      simp [Heap.write, List.set_eq_of_length_le hilen]
    rw [heq]; exact hg j
  by_cases hij : i = j
  · subst hij
    unfold goodEntry
    rw [h.read_write_self i e hilen, Heap.len_write]
    rcases he with ht | ht | ⟨ht, hd⟩ | ht | ⟨ht, hd⟩
    · rw [ht]; simp
    · rw [ht]; simp
    · rw [ht]; simp only []
      refine ⟨(fun hh => nomatch hh), (fun hh => nomatch hh), fun _ => hd⟩
    · subst ht
      refine ⟨fun _ => rfl, (fun hh => nomatch hh), (fun hh => nomatch hh)⟩
    · rw [ht]
      refine ⟨(fun hh => nomatch hh), fun _ => ?_, (fun hh => nomatch hh)⟩
      have hne : e.data ≠ i := by
        intro hcon
        rw [hcon, hu] at hd
        cases hd
      rw [h.read_write_ne i e.data e (fun hh => hne hh.symm)]
      exact hd
  · obtain ⟨h1, h2, h3⟩ := hg j
    unfold goodEntry
    rw [h.read_write_ne i j e hij, Heap.len_write]
    refine ⟨h1, ?_, h3⟩
    intro ht
    have h2' := h2 ht
    have hne : (h.read j).data ≠ i := by
      intro hcon
      rw [hcon, hu] at h2'
      cases h2'
    rw [h.read_write_ne i _ e (fun hh => hne hh.symm)]
    exact h2'

/-! ## Symbol table: interning invariant -/

/-- The symbol table is a consistent bidirectional mapping: every id the
lookup map assigns names the stored symbol, and every stored symbol looks
up to its own position. -/
def SymGood (t : SymbolTable) : Prop :=
  (∀ s i, t.get_index s = some i → i < t.symbols.length ∧ t.symbols.getD i "" = s)
  ∧ (∀ i, i < t.symbols.length → t.get_index (t.symbols.getD i "") = some i)

theorem symGood_new : SymGood SymbolTable.new := by
  constructor
  · intro s i h
    cases h
  · intro i h
    cases h

theorem intern_of_some (t : SymbolTable) (s : String) (i : Nat)
    (h : t.get_index s = some i) : t.intern s = (t, i) := by
  unfold SymbolTable.intern
  rw [h]

theorem intern_of_none (t : SymbolTable) (s : String) (h : t.get_index s = none) :
    (t.intern s).2 = t.symbols.length ∧ (t.intern s).1.symbols = t.symbols ++ [s] := by
  unfold SymbolTable.intern
  rw [h]
  unfold SymbolTable.push
  simp

theorem symGood_intern (t : SymbolTable) (s : String) (hg : SymGood t) :
    SymGood (t.intern s).1 := by
  obtain ⟨hg1, hg2⟩ := hg
  unfold SymbolTable.intern
  cases hidx : t.get_index s with
  | some j => exact ⟨hg1, hg2⟩
  | none =>
    unfold SymbolTable.push
    constructor
    · intro s' i hs'
      unfold SymbolTable.get_index lookupAssoc at hs'
      simp only [List.length_append, List.length_singleton] at hs' ⊢
      by_cases hss : s = s'
      · subst hss
        rw [if_pos rfl] at hs'
        have hi : i = t.symbols.length := by
          have := Option.some.inj hs'
          omega
        subst hi
        refine ⟨by omega, ?_⟩
        have : t.symbols.length < (t.symbols ++ [s]).length := by simp
        simp [List.getD, List.getElem?_append_right (Nat.le_refl t.symbols.length)]
      · rw [if_neg hss] at hs'
        obtain ⟨hlt, hname⟩ := hg1 s' i hs'
        refine ⟨by omega, ?_⟩
        rw [← hname]
        simp [List.getD, List.getElem?_append, hlt]
    · intro i hi
      simp only [List.length_append, List.length_singleton] at hi
      unfold SymbolTable.get_index lookupAssoc
      simp only [List.length_append, List.length_singleton]
      rcases Nat.lt_or_ge i t.symbols.length with hlt | hge
      · have hname : (t.symbols ++ [s]).getD i "" = t.symbols.getD i "" := by
          simp [List.getD, List.getElem?_append, hlt]
        rw [hname]
        have hs' : t.get_index (t.symbols.getD i "") = some i := hg2 i hlt
        by_cases hss : s = t.symbols.getD i ""
        · rw [hss] at hidx
          rw [hidx] at hs'
          cases hs'
        · rw [if_neg hss]
          unfold SymbolTable.get_index at hs'
          rw [hs']
      · have hieq : i = t.symbols.length := by omega
        subst hieq
        have hname : (t.symbols ++ [s]).getD t.symbols.length "" = s := by
          simp [List.getD, List.getElem?_append_right (Nat.le_refl t.symbols.length)]
        rw [hname, if_pos rfl]
        exact congrArg some (by omega)

theorem intern_get_index (t : SymbolTable) (s : String) :
    (t.intern s).1.get_index s = some (t.intern s).2 := by
  unfold SymbolTable.intern
  cases hidx : t.get_index s with
  | some j => simpa using hidx
  | none =>
    unfold SymbolTable.push SymbolTable.get_index lookupAssoc
    simp

theorem intern_get (t : SymbolTable) (s : String) (hg : SymGood t) :
    (t.intern s).1.get (t.intern s).2 = s := by
  have hgi := intern_get_index t s
  have hg' := symGood_intern t s hg
  exact (hg'.1 s _ hgi).2

theorem symExtends_intern (t : SymbolTable) (s s' : String) (i : Nat)
    (h : t.get_index s' = some i) : (t.intern s).1.get_index s' = some i := by
  unfold SymbolTable.intern
  cases hidx : t.get_index s with
  | some j => exact h
  | none =>
    unfold SymbolTable.push SymbolTable.get_index lookupAssoc
    by_cases hss : s = s'
    · subst hss
      rw [hidx] at h
      cases h
    · simp only [if_neg hss]
      exact h

theorem symGood_inj (t : SymbolTable) (s1 s2 : String) (i : Nat) (hg : SymGood t)
    (h1 : t.get_index s1 = some i) (h2 : t.get_index s2 = some i) : s1 = s2 := by
  have e1 := (hg.1 s1 i h1).2
  have e2 := (hg.1 s2 i h2).2
  rw [← e1, ← e2]

/-! ## MapOK preservation helpers -/

theorem mapOK_heap_write (c : Compiler) (i : Nat) (e : HeapEntry) (hm : MapOK c)
    (hu : c.heap.read i = HeapEntry.empty) :
    MapOK { c with heap := c.heap.write i e } := by
  intro x m hx
  obtain ⟨h1, h2⟩ := hm x m hx
  have hne : m ≠ i := by
    intro hcon
    rw [hcon, hu] at h2
    cases h2
  constructor
  · simp only [Heap.len_write]
    exact h1
  · rw [Heap.read_write_ne _ _ _ _ (fun hh => hne hh.symm)]
    exact h2

theorem mapOK_heap_alloc (c : Compiler) (n : Nat) (hm : MapOK c) :
    MapOK { c with heap := (c.heap.alloc n).1 } := by
  intro x m hx
  obtain ⟨h1, h2⟩ := hm x m hx
  constructor
  · simp only [Heap.len_alloc]
    omega
  · rw [Heap.read_alloc_old _ _ _ h1]
    exact h2

/-! ## Specifications of the simple-term compilation steps -/

theorem csta_common (c : Compiler) (t : SimpleTerm) (index : Nat) :
    (c.compile_simple_term_no_alloc t index).heap.len = c.heap.len
    ∧ (∀ i, i ≠ index → (c.compile_simple_term_no_alloc t index).heap.read i = c.heap.read i)
    ∧ fieldsEq c (c.compile_simple_term_no_alloc t index)
    ∧ (∀ x m, lookupAssoc (c.compile_simple_term_no_alloc t index).current_clause_variables x = some m →
        lookupAssoc c.current_clause_variables x = some m ∨ m = index)
    ∧ (∀ s i, c.symbol_table.get_index s = some i →
        (c.compile_simple_term_no_alloc t index).symbol_table.get_index s = some i)
    ∧ (SymGood c.symbol_table → SymGood (c.compile_simple_term_no_alloc t index).symbol_table) := by
  cases t with
  | Atom a =>
    simp only [Compiler.compile_simple_term_no_alloc]
    refine ⟨Heap.len_write _ _ _, fun i hi => Heap.read_write_ne _ _ _ _ (fun hh => hi hh.symm),
      ⟨rfl, rfl, rfl, rfl⟩, fun x m hx => Or.inl hx,
      fun s i hs => symExtends_intern _ _ _ _ hs, fun hg => symGood_intern _ _ hg⟩
  | Variable v =>
    cases hl : lookupAssoc c.current_clause_variables v with
    | some vi =>
      simp only [Compiler.compile_simple_term_no_alloc, hl]
      refine ⟨Heap.len_write _ _ _, fun i hi => Heap.read_write_ne _ _ _ _ (fun hh => hi hh.symm),
        ⟨rfl, rfl, rfl, rfl⟩, fun x m hx => Or.inl hx, fun s i hs => hs, fun hg => hg⟩
    | none =>
      simp only [Compiler.compile_simple_term_no_alloc, hl]
      refine ⟨Heap.len_write _ _ _, fun i hi => Heap.read_write_ne _ _ _ _ (fun hh => hi hh.symm),
        ⟨rfl, rfl, rfl, rfl⟩, ?_, fun s i hs => hs, fun hg => hg⟩
      intro x m hx
      unfold lookupAssoc at hx
      by_cases hvx : v = x
      · rw [if_pos hvx] at hx
        exact Or.inr (Option.some.inj hx).symm
      · rw [if_neg hvx] at hx
        exact Or.inl hx

theorem csta_invariants (c : Compiler) (t : SimpleTerm) (index : Nat)
    (hg : GoodHeap c.heap) (hm : MapOK c)
    (hidx : index < c.heap.len) (hu : c.heap.read index = HeapEntry.empty) :
    GoodHeap (c.compile_simple_term_no_alloc t index).heap
    ∧ MapOK (c.compile_simple_term_no_alloc t index) := by
  cases t with
  | Atom a =>
    simp only [Compiler.compile_simple_term_no_alloc]
    constructor
    · exact goodHeap_write _ _ _ hg hu (Or.inr (Or.inl rfl))
    · intro x m hx
      exact mapOK_heap_write c index _ hm hu x m hx
  | Variable v =>
    cases hl : lookupAssoc c.current_clause_variables v with
    | some vi =>
      obtain ⟨hvi1, hvi2⟩ := hm v vi hl
      simp only [Compiler.compile_simple_term_no_alloc, hl]
      constructor
      · exact goodHeap_write _ _ _ hg hu (Or.inr (Or.inr (Or.inr (Or.inr ⟨rfl, hvi2⟩))))
      · intro x m hx
        exact mapOK_heap_write c index _ hm hu x m hx
    | none =>
      simp only [Compiler.compile_simple_term_no_alloc, hl]
      constructor
      · exact goodHeap_write _ _ _ hg hu (Or.inr (Or.inr (Or.inr (Or.inl rfl))))
      · intro x m hx
        unfold lookupAssoc at hx
        by_cases hvx : v = x
        · rw [if_pos hvx] at hx
          have hm' : m = index := (Option.some.inj hx).symm
          subst hm'
          constructor
          · simp only [Heap.len_write]
            exact hidx
          · exact Heap.read_write_self _ _ _ hidx
        · rw [if_neg hvx] at hx
          exact mapOK_heap_write c index _ hm hu x m hx

theorem csta_atom (c : Compiler) (a : String) (index : Nat) (hidx : index < c.heap.len) :
    (c.compile_simple_term_no_alloc (SimpleTerm.Atom a) index).heap.read index
      = ⟨HeapTag.Constant, (c.symbol_table.intern a).2⟩
    ∧ (c.compile_simple_term_no_alloc (SimpleTerm.Atom a) index).symbol_table
      = (c.symbol_table.intern a).1
    ∧ (c.compile_simple_term_no_alloc (SimpleTerm.Atom a) index).current_clause_variables
      = c.current_clause_variables := by
  simp only [Compiler.compile_simple_term_no_alloc]
  refine ⟨Heap.read_write_self _ _ _ hidx, ?_, ?_⟩ <;> simp

theorem csta_var_first (c : Compiler) (v : String) (index : Nat)
    (hnone : lookupAssoc c.current_clause_variables v = none) (hidx : index < c.heap.len) :
    (c.compile_simple_term_no_alloc (SimpleTerm.Variable v) index).heap.read index
      = ⟨HeapTag.Variable, index⟩
    ∧ lookupAssoc (c.compile_simple_term_no_alloc (SimpleTerm.Variable v) index).current_clause_variables v
      = some index := by
  simp only [Compiler.compile_simple_term_no_alloc, hnone]
  refine ⟨Heap.read_write_self _ _ _ hidx, ?_⟩
  unfold lookupAssoc
  rw [if_pos rfl]

theorem csta_var_seen (c : Compiler) (v : String) (index vi : Nat)
    (hsome : lookupAssoc c.current_clause_variables v = some vi) (hidx : index < c.heap.len) :
    (c.compile_simple_term_no_alloc (SimpleTerm.Variable v) index).heap.read index
      = ⟨HeapTag.Unify, vi⟩
    ∧ (c.compile_simple_term_no_alloc (SimpleTerm.Variable v) index).current_clause_variables
      = c.current_clause_variables := by
  simp only [Compiler.compile_simple_term_no_alloc, hsome]
  refine ⟨Heap.read_write_self _ _ _ hidx, ?_⟩
  simp

theorem create_arity_spec (c : Compiler) :
    c.create_arity_entry_for_simple_term.heap.len = c.heap.len + 1
    ∧ (∀ i, i < c.heap.len → c.create_arity_entry_for_simple_term.heap.read i = c.heap.read i)
    ∧ c.create_arity_entry_for_simple_term.heap.read c.heap.len = ⟨HeapTag.Arity, 1⟩
    ∧ fieldsEq c c.create_arity_entry_for_simple_term
    ∧ c.create_arity_entry_for_simple_term.symbol_table = c.symbol_table
    ∧ c.create_arity_entry_for_simple_term.current_clause_variables = c.current_clause_variables
    ∧ (GoodHeap c.heap → GoodHeap c.create_arity_entry_for_simple_term.heap)
    ∧ (MapOK c → MapOK c.create_arity_entry_for_simple_term) := by
  have hlen1 : (c.heap.alloc 1).1.len = c.heap.len + 1 := Heap.len_alloc _ _
  have hsnd : (c.heap.alloc 1).2 = c.heap.len := Heap.alloc_snd _ _
  have hempty : (c.heap.alloc 1).1.read c.heap.len = HeapEntry.empty := by
    apply Heap.read_alloc_new
    exact Nat.le_refl _
  simp only [Compiler.create_arity_entry_for_simple_term]
  rw [hsnd]
  refine ⟨?_, ?_, ?_, ⟨?_, ?_, ?_, ?_⟩, ?_, ?_, ?_, ?_⟩
  · rw [Heap.len_write, hlen1]
  · intro i hi
    rw [Heap.read_write_ne _ _ _ _ (by omega), Heap.read_alloc_old _ _ _ hi]
  · rw [Heap.read_write_self _ _ _ (by rw [hlen1]; omega)]
  · trivial
  · trivial
  · trivial
  · trivial
  · trivial
  · trivial
  · intro hg
    exact goodHeap_write _ _ _ (goodHeap_alloc _ _ hg) hempty (Or.inl rfl)
  · intro hm
    have hm' := mapOK_heap_alloc c 1 hm
    exact mapOK_heap_write { c with heap := (c.heap.alloc 1).1 } c.heap.len _ hm' hempty

/-! ## The block-allocation step of compile_compound_term -/

theorem alloc_write_arity_spec (c : Compiler) (n k : Nat) (hn : 0 < n) :
    ({ c with heap := (c.heap.alloc n).1.write c.heap.len ⟨HeapTag.Arity, k⟩ } : Compiler).heap.len
      = c.heap.len + n
    ∧ (∀ i, i < c.heap.len →
        ({ c with heap := (c.heap.alloc n).1.write c.heap.len ⟨HeapTag.Arity, k⟩ } : Compiler).heap.read i = c.heap.read i)
    ∧ ({ c with heap := (c.heap.alloc n).1.write c.heap.len ⟨HeapTag.Arity, k⟩ } : Compiler).heap.read c.heap.len
      = ⟨HeapTag.Arity, k⟩
    ∧ (∀ j, 0 < j → j < n →
        ({ c with heap := (c.heap.alloc n).1.write c.heap.len ⟨HeapTag.Arity, k⟩ } : Compiler).heap.read (c.heap.len + j) = HeapEntry.empty)
    ∧ (GoodHeap c.heap → GoodHeap ({ c with heap := (c.heap.alloc n).1.write c.heap.len ⟨HeapTag.Arity, k⟩ } : Compiler).heap)
    ∧ (MapOK c → MapOK ({ c with heap := (c.heap.alloc n).1.write c.heap.len ⟨HeapTag.Arity, k⟩ } : Compiler)) := by
  have hlen : (c.heap.alloc n).1.len = c.heap.len + n := Heap.len_alloc _ _
  have hempty : (c.heap.alloc n).1.read c.heap.len = HeapEntry.empty :=
    Heap.read_alloc_new _ _ _ (Nat.le_refl _)
  refine ⟨?_, ?_, ?_, ?_, ?_, ?_⟩
  · rw [Heap.len_write, hlen]
  · intro i hi
    rw [Heap.read_write_ne _ _ _ _ (by omega), Heap.read_alloc_old _ _ _ hi]
  · rw [Heap.read_write_self _ _ _ (by omega)]
  · intro j hj1 hj2
    rw [Heap.read_write_ne _ _ _ _ (by omega), Heap.read_alloc_new _ _ _ (by omega)]
  · intro hg
    exact goodHeap_write _ _ _ (goodHeap_alloc _ _ hg) hempty (Or.inl rfl)
  · intro hm
    exact mapOK_heap_write { c with heap := (c.heap.alloc n).1 } c.heap.len _
      (mapOK_heap_alloc c n hm) hempty

/-! ## Group A: length accounting, bookkeeping fields, clause-variable map
growth, symbol table preservation -/

mutual

theorem compile_param_A (c : Compiler) (p : Term) (index : Nat) :
    (Compiler.compile_param c p index).heap.len = c.heap.len + paramExtraCells p
    ∧ fieldsEq c (Compiler.compile_param c p index)
    ∧ (∀ x m, lookupAssoc (Compiler.compile_param c p index).current_clause_variables x = some m →
        lookupAssoc c.current_clause_variables x = some m ∨ index ≤ m ∨ c.heap.len ≤ m)
    ∧ (∀ s i, c.symbol_table.get_index s = some i →
        (Compiler.compile_param c p index).symbol_table.get_index s = some i)
    ∧ (SymGood c.symbol_table → SymGood (Compiler.compile_param c p index).symbol_table) := by
  match p with
  | Term.Simple s =>
    obtain ⟨h1, h2, h3, h4, h5, h6⟩ := csta_common c s index
    exact ⟨h1, h3, fun x m hx => (h4 x m hx).elim Or.inl (fun he => Or.inr (Or.inl (Nat.le_of_eq he.symm))),
      h5, h6⟩
  | Term.Compound n2 ps2 =>
    have e : Compiler.compile_param c (Term.Compound n2 ps2) index =
        { (Compiler.compile_compound_term c n2 ps2).1 with
          heap := (Compiler.compile_compound_term c n2 ps2).1.heap.write index
            ⟨HeapTag.Reference, (Compiler.compile_compound_term c n2 ps2).2⟩ } := rfl
    obtain ⟨g0, g1, g2, g3, g4, g5⟩ := compile_cct_A c n2 ps2
    rw [e]
    refine ⟨?_, ?_, ?_, ?_, ?_⟩
    · simp only [Heap.len_write]
      rw [g1]
      rfl
    · obtain ⟨f1, f2, f3, f4⟩ := g2
      exact ⟨f1, f2, f3, f4⟩
    · intro x m hx
      exact (g3 x m hx).elim Or.inl (fun hb => Or.inr (Or.inr hb))
    · exact g4
    · exact g5
termination_by (sizeOf p, 0)

theorem compile_cct_A (c : Compiler) (n : SimpleTerm) (ps : TermList) :
    (Compiler.compile_compound_term c n ps).2 = c.heap.len
    ∧ (Compiler.compile_compound_term c n ps).1.heap.len
      = c.heap.len + (2 + ps.length + extraCells ps)
    ∧ fieldsEq c (Compiler.compile_compound_term c n ps).1
    ∧ (∀ x m, lookupAssoc (Compiler.compile_compound_term c n ps).1.current_clause_variables x = some m →
        lookupAssoc c.current_clause_variables x = some m ∨ c.heap.len ≤ m)
    ∧ (∀ s i, c.symbol_table.get_index s = some i →
        (Compiler.compile_compound_term c n ps).1.symbol_table.get_index s = some i)
    ∧ (SymGood c.symbol_table → SymGood (Compiler.compile_compound_term c n ps).1.symbol_table) := by
  have e1 : (Compiler.compile_compound_term c n ps).1 =
      Compiler.compile_params
        (Compiler.compile_simple_term_no_alloc
          { c with heap := ((c.heap.alloc (1 + (ps.length + 1))).1.write c.heap.len
              ⟨HeapTag.Arity, ps.length + 1⟩) } n (c.heap.len + 1))
        ps (c.heap.len + 2) := rfl
  have e2 : (Compiler.compile_compound_term c n ps).2 = c.heap.len := rfl
  obtain ⟨a1, a2, a3, a4, a5, a6⟩ :=
    alloc_write_arity_spec c (1 + (ps.length + 1)) (ps.length + 1) (by omega)
  obtain ⟨b1, b2, b3, b4, b5, b6⟩ := csta_common
    { c with heap := ((c.heap.alloc (1 + (ps.length + 1))).1.write c.heap.len
        ⟨HeapTag.Arity, ps.length + 1⟩) } n (c.heap.len + 1)
  obtain ⟨d1, d2, d3, d4, d5⟩ := compile_params_A
    (Compiler.compile_simple_term_no_alloc
      { c with heap := ((c.heap.alloc (1 + (ps.length + 1))).1.write c.heap.len
          ⟨HeapTag.Arity, ps.length + 1⟩) } n (c.heap.len + 1))
    ps (c.heap.len + 2)
  rw [e1, e2]
  refine ⟨rfl, ?_, ?_, ?_, ?_, ?_⟩
  · rw [d1, b1, a1]
    omega
  · obtain ⟨f1, f2, f3, f4⟩ := d2
    obtain ⟨p1, p2, p3, p4⟩ := b3
    exact ⟨by rw [f1, p1], by rw [f2, p2], by rw [f3, p3], by rw [f4, p4]⟩
  · intro x m hx
    rcases d3 x m hx with hold | hge | hge
    · rcases b4 x m hold with hold2 | heq
      · exact Or.inl hold2
      · exact Or.inr (by omega)
    · exact Or.inr (by omega)
    · have : c.heap.len ≤ m := by
        rw [b1, a1] at hge
        omega
      exact Or.inr this
  · intro s i hs
    exact d4 s i (b5 s i hs)
  · intro hg
    exact d5 (b6 hg)
termination_by (sizeOf ps, 1)

theorem compile_params_A (c : Compiler) (params : TermList) (index : Nat) :
    (Compiler.compile_params c params index).heap.len = c.heap.len + extraCells params
    ∧ fieldsEq c (Compiler.compile_params c params index)
    ∧ (∀ x m, lookupAssoc (Compiler.compile_params c params index).current_clause_variables x = some m →
        lookupAssoc c.current_clause_variables x = some m ∨ index ≤ m ∨ c.heap.len ≤ m)
    ∧ (∀ s i, c.symbol_table.get_index s = some i →
        (Compiler.compile_params c params index).symbol_table.get_index s = some i)
    ∧ (SymGood c.symbol_table → SymGood (Compiler.compile_params c params index).symbol_table) := by
  match params with
  | TermList.nil =>
    exact ⟨rfl, ⟨rfl, rfl, rfl, rfl⟩, fun x m hx => Or.inl hx, fun s i hs => hs, fun hg => hg⟩
  | TermList.cons p rest =>
    have e : Compiler.compile_params c (TermList.cons p rest) index =
        Compiler.compile_params (Compiler.compile_param c p index) rest (index + 1) := rfl
    obtain ⟨a1, a2, a3, a4, a5⟩ := compile_param_A c p index
    obtain ⟨d1, d2, d3, d4, d5⟩ := compile_params_A (Compiler.compile_param c p index) rest (index + 1)
    rw [e]
    refine ⟨?_, ?_, ?_, ?_, ?_⟩
    · rw [d1, a1]
      show c.heap.len + paramExtraCells p + extraCells rest
        = c.heap.len + (paramExtraCells p + extraCells rest)
      omega
    · obtain ⟨f1, f2, f3, f4⟩ := d2
      obtain ⟨p1, p2, p3, p4⟩ := a2
      exact ⟨by rw [f1, p1], by rw [f2, p2], by rw [f3, p3], by rw [f4, p4]⟩
    · intro x m hx
      rcases d3 x m hx with hold | hge | hge
      · rcases a3 x m hold with h | h | h
        · exact Or.inl h
        · exact Or.inr (Or.inl h)
        · exact Or.inr (Or.inr h)
      · exact Or.inr (Or.inl (by omega))
      · rw [a1] at hge
        exact Or.inr (Or.inr (by omega))
    · intro s i hs
      exact d4 s i (a4 s i hs)
    · intro hg
      exact d5 (a5 hg)
termination_by (sizeOf params, 0)

end

/-! ## Group B: frame — cells below the allocation point (and outside the
parameter slots) are never rewritten -/

mutual

theorem compile_param_B (c : Compiler) (p : Term) (index : Nat) :
    ∀ i, i < c.heap.len → i ≠ index →
      (Compiler.compile_param c p index).heap.read i = c.heap.read i := by
  match p with
  | Term.Simple s =>
    intro i hi hne
    exact (csta_common c s index).2.1 i hne
  | Term.Compound n2 ps2 =>
    have e : Compiler.compile_param c (Term.Compound n2 ps2) index =
        { (Compiler.compile_compound_term c n2 ps2).1 with
          heap := (Compiler.compile_compound_term c n2 ps2).1.heap.write index
            ⟨HeapTag.Reference, (Compiler.compile_compound_term c n2 ps2).2⟩ } := rfl
    intro i hi hne
    rw [e]
    show ((Compiler.compile_compound_term c n2 ps2).1.heap.write index _).read i = _
    rw [Heap.read_write_ne _ _ _ _ (fun hh => hne hh.symm)]
    exact compile_cct_B c n2 ps2 i hi
termination_by (sizeOf p, 0)

theorem compile_cct_B (c : Compiler) (n : SimpleTerm) (ps : TermList) :
    ∀ i, i < c.heap.len →
      (Compiler.compile_compound_term c n ps).1.heap.read i = c.heap.read i := by
  have e1 : (Compiler.compile_compound_term c n ps).1 =
      Compiler.compile_params
        (Compiler.compile_simple_term_no_alloc
          { c with heap := ((c.heap.alloc (1 + (ps.length + 1))).1.write c.heap.len
              ⟨HeapTag.Arity, ps.length + 1⟩) } n (c.heap.len + 1))
        ps (c.heap.len + 2) := rfl
  obtain ⟨a1, a2, a3, a4, a5, a6⟩ :=
    alloc_write_arity_spec c (1 + (ps.length + 1)) (ps.length + 1) (by omega)
  obtain ⟨b1, b2, b3, b4, b5, b6⟩ := csta_common
    { c with heap := ((c.heap.alloc (1 + (ps.length + 1))).1.write c.heap.len
        ⟨HeapTag.Arity, ps.length + 1⟩) } n (c.heap.len + 1)
  intro i hi
  rw [e1]
  rw [compile_params_B _ ps (c.heap.len + 2) i (by rw [b1, a1]; omega) (Or.inl (by omega))]
  rw [b2 i (by omega)]
  exact a2 i hi
termination_by (sizeOf ps, 1)

theorem compile_params_B (c : Compiler) (params : TermList) (index : Nat) :
    ∀ i, i < c.heap.len → (i < index ∨ index + params.length ≤ i) →
      (Compiler.compile_params c params index).heap.read i = c.heap.read i := by
  match params with
  | TermList.nil =>
    intro i hi hr
    rfl
  | TermList.cons p rest =>
    have e : Compiler.compile_params c (TermList.cons p rest) index =
        Compiler.compile_params (Compiler.compile_param c p index) rest (index + 1) := rfl
    intro i hi hr
    have hlen : (Compiler.compile_param c p index).heap.len = c.heap.len + paramExtraCells p :=
      (compile_param_A c p index).1
    have hrange : i < index ∨ index + 1 + rest.length ≤ i := by
      rcases hr with h | h
      · exact Or.inl h
      · refine Or.inr ?_
        have : TermList.length (TermList.cons p rest) = rest.length + 1 := rfl
        omega
    have hne : i ≠ index := by
      rcases hrange with h | h
      · omega
      · omega
    rw [e]
    rw [compile_params_B (Compiler.compile_param c p index) rest (index + 1) i
        (by omega) (by rcases hrange with h | h; exact Or.inl (by omega); exact Or.inr h)]
    exact compile_param_B c p index i hi hne
termination_by (sizeOf params, 0)

end

/-! ## Group C: preservation of the compiled-heap invariants -/

mutual

theorem compile_param_C (c : Compiler) (p : Term) (index : Nat)
    (hg : GoodHeap c.heap) (hm : MapOK c)
    (hidx : index < c.heap.len) (hu : c.heap.read index = HeapEntry.empty) :
    GoodHeap (Compiler.compile_param c p index).heap
    ∧ MapOK (Compiler.compile_param c p index) := by
  match p with
  | Term.Simple s =>
    exact csta_invariants c s index hg hm hidx hu
  | Term.Compound n2 ps2 =>
    have e : Compiler.compile_param c (Term.Compound n2 ps2) index =
        { (Compiler.compile_compound_term c n2 ps2).1 with
          heap := (Compiler.compile_compound_term c n2 ps2).1.heap.write index
            ⟨HeapTag.Reference, (Compiler.compile_compound_term c n2 ps2).2⟩ } := rfl
    obtain ⟨hg', hm'⟩ := compile_cct_C c n2 ps2 hg hm
    have hlen : (Compiler.compile_compound_term c n2 ps2).1.heap.len
        = c.heap.len + (2 + ps2.length + extraCells ps2) := (compile_cct_A c n2 ps2).2.1
    have hsnd : (Compiler.compile_compound_term c n2 ps2).2 = c.heap.len :=
      (compile_cct_A c n2 ps2).1
    have hu' : (Compiler.compile_compound_term c n2 ps2).1.heap.read index = HeapEntry.empty := by
      rw [compile_cct_B c n2 ps2 index hidx]
      exact hu
    rw [e]
    constructor
    · refine goodHeap_write _ _ _ hg' hu' (Or.inr (Or.inr (Or.inl ⟨rfl, ?_⟩)))
      simp only [hsnd, hlen]
      show c.heap.len < c.heap.len + (2 + ps2.length + extraCells ps2)
      omega
    · exact mapOK_heap_write (Compiler.compile_compound_term c n2 ps2).1 index _ hm' hu'
termination_by (sizeOf p, 0)

theorem compile_cct_C (c : Compiler) (n : SimpleTerm) (ps : TermList)
    (hg : GoodHeap c.heap) (hm : MapOK c) :
    GoodHeap (Compiler.compile_compound_term c n ps).1.heap
    ∧ MapOK (Compiler.compile_compound_term c n ps).1 := by
  have e1 : (Compiler.compile_compound_term c n ps).1 =
      Compiler.compile_params
        (Compiler.compile_simple_term_no_alloc
          { c with heap := ((c.heap.alloc (1 + (ps.length + 1))).1.write c.heap.len
              ⟨HeapTag.Arity, ps.length + 1⟩) } n (c.heap.len + 1))
        ps (c.heap.len + 2) := rfl
  obtain ⟨a1, a2, a3, a4, a5, a6⟩ :=
    alloc_write_arity_spec c (1 + (ps.length + 1)) (ps.length + 1) (by omega)
  obtain ⟨b1, b2, b3, b4, b5, b6⟩ := csta_common
    { c with heap := ((c.heap.alloc (1 + (ps.length + 1))).1.write c.heap.len
        ⟨HeapTag.Arity, ps.length + 1⟩) } n (c.heap.len + 1)
  obtain ⟨cg, cm⟩ := csta_invariants
    { c with heap := ((c.heap.alloc (1 + (ps.length + 1))).1.write c.heap.len
        ⟨HeapTag.Arity, ps.length + 1⟩) } n (c.heap.len + 1)
    (a5 hg) (a6 hm) (by rw [a1]; omega) (a4 1 (by omega) (by omega))
  rw [e1]
  refine compile_params_C _ ps (c.heap.len + 2) cg cm (by rw [b1, a1]; omega) ?_
  intro j hj
  rw [b2 (c.heap.len + 2 + j) (by omega)]
  have : c.heap.len + 2 + j = c.heap.len + (j + 2) := by omega
  rw [this]
  exact a4 (j + 2) (by omega) (by omega)
termination_by (sizeOf ps, 1)

theorem compile_params_C (c : Compiler) (params : TermList) (index : Nat)
    (hg : GoodHeap c.heap) (hm : MapOK c)
    (hIdx : index + params.length ≤ c.heap.len)
    (hUn : ∀ j, j < params.length → c.heap.read (index + j) = HeapEntry.empty) :
    GoodHeap (Compiler.compile_params c params index).heap
    ∧ MapOK (Compiler.compile_params c params index) := by
  match params with
  | TermList.nil =>
    exact ⟨hg, hm⟩
  | TermList.cons p rest =>
    have e : Compiler.compile_params c (TermList.cons p rest) index =
        Compiler.compile_params (Compiler.compile_param c p index) rest (index + 1) := rfl
    have hlencons : TermList.length (TermList.cons p rest) = rest.length + 1 := rfl
    have hidx : index < c.heap.len := by omega
    have hu : c.heap.read index = HeapEntry.empty := by
      have := hUn 0 (by omega)
      simpa using this
    obtain ⟨hg', hm'⟩ := compile_param_C c p index hg hm hidx hu
    have hlen : (Compiler.compile_param c p index).heap.len = c.heap.len + paramExtraCells p :=
      (compile_param_A c p index).1
    rw [e]
    refine compile_params_C (Compiler.compile_param c p index) rest (index + 1) hg' hm'
      (by omega) ?_
    intro j hj
    rw [compile_param_B c p index (index + 1 + j) (by omega) (by omega)]
    have : index + 1 + j = index + (j + 1) := by omega
    rw [this]
    exact hUn (j + 1) (by omega)
termination_by (sizeOf params, 0)

end

/-! ## Group D: block contents — Arity cell at block start, Reference slots
for nested compound parameters -/

mutual

theorem compile_param_D (c : Compiler) (p : Term) (index : Nat)
    (hidx : index < c.heap.len) (hu : c.heap.read index = HeapEntry.empty) :
    ∀ n2 ps2, p = Term.Compound n2 ps2 →
      (Compiler.compile_param c p index).heap.read index
        = ⟨HeapTag.Reference, c.heap.len⟩
      ∧ (Compiler.compile_param c p index).heap.read c.heap.len
        = ⟨HeapTag.Arity, ps2.length + 1⟩ := by
  match p with
  | Term.Simple s =>
    intro n2 ps2 hp
    exact nomatch hp
  | Term.Compound n2' ps2' =>
    intro n2 ps2 hp
    have hn : n2' = n2 := by cases hp; rfl
    have hps : ps2' = ps2 := by cases hp; rfl
    subst hn
    subst hps
    have e : Compiler.compile_param c (Term.Compound n2' ps2') index =
        { (Compiler.compile_compound_term c n2' ps2').1 with
          heap := (Compiler.compile_compound_term c n2' ps2').1.heap.write index
            ⟨HeapTag.Reference, (Compiler.compile_compound_term c n2' ps2').2⟩ } := rfl
    have hsnd : (Compiler.compile_compound_term c n2' ps2').2 = c.heap.len :=
      (compile_cct_A c n2' ps2').1
    have hlen : (Compiler.compile_compound_term c n2' ps2').1.heap.len
        = c.heap.len + (2 + ps2'.length + extraCells ps2') := (compile_cct_A c n2' ps2').2.1
    rw [e]
    constructor
    · show ((Compiler.compile_compound_term c n2' ps2').1.heap.write index _).read index = _
      rw [Heap.read_write_self _ _ _ (by omega), hsnd]
    · show ((Compiler.compile_compound_term c n2' ps2').1.heap.write index _).read c.heap.len = _
      rw [Heap.read_write_ne _ _ _ _ (by omega)]
      exact (compile_cct_D c n2' ps2').1
termination_by (sizeOf p, 0)

theorem compile_cct_D (c : Compiler) (n : SimpleTerm) (ps : TermList) :
    (Compiler.compile_compound_term c n ps).1.heap.read c.heap.len
      = ⟨HeapTag.Arity, ps.length + 1⟩
    ∧ (∀ j n2 ps2, ps.getIdx j = some (Term.Compound n2 ps2) →
        (Compiler.compile_compound_term c n ps).1.heap.read (c.heap.len + 2 + j)
          = ⟨HeapTag.Reference, c.heap.len + (2 + ps.length) + extraCells (TermList.take j ps)⟩
        ∧ (Compiler.compile_compound_term c n ps).1.heap.read
            (c.heap.len + (2 + ps.length) + extraCells (TermList.take j ps))
          = ⟨HeapTag.Arity, ps2.length + 1⟩) := by
  have e1 : (Compiler.compile_compound_term c n ps).1 =
      Compiler.compile_params
        (Compiler.compile_simple_term_no_alloc
          { c with heap := ((c.heap.alloc (1 + (ps.length + 1))).1.write c.heap.len
              ⟨HeapTag.Arity, ps.length + 1⟩) } n (c.heap.len + 1))
        ps (c.heap.len + 2) := rfl
  obtain ⟨a1, a2, a3, a4, a5, a6⟩ :=
    alloc_write_arity_spec c (1 + (ps.length + 1)) (ps.length + 1) (by omega)
  obtain ⟨b1, b2, b3, b4, b5, b6⟩ := csta_common
    { c with heap := ((c.heap.alloc (1 + (ps.length + 1))).1.write c.heap.len
        ⟨HeapTag.Arity, ps.length + 1⟩) } n (c.heap.len + 1)
  have hIdx2 : (c.heap.len + 2) + ps.length ≤
      (Compiler.compile_simple_term_no_alloc
        { c with heap := ((c.heap.alloc (1 + (ps.length + 1))).1.write c.heap.len
            ⟨HeapTag.Arity, ps.length + 1⟩) } n (c.heap.len + 1)).heap.len := by
    rw [b1, a1]
    omega
  have hUn2 : ∀ j, j < ps.length →
      (Compiler.compile_simple_term_no_alloc
        { c with heap := ((c.heap.alloc (1 + (ps.length + 1))).1.write c.heap.len
            ⟨HeapTag.Arity, ps.length + 1⟩) } n (c.heap.len + 1)).heap.read (c.heap.len + 2 + j)
        = HeapEntry.empty := by
    intro j hj
    rw [b2 (c.heap.len + 2 + j) (by omega)]
    have harr : c.heap.len + 2 + j = c.heap.len + (j + 2) := by omega
    rw [harr]
    exact a4 (j + 2) (by omega) (by omega)
  constructor
  · rw [e1]
    rw [compile_params_B _ ps (c.heap.len + 2) c.heap.len (by rw [b1, a1]; omega)
        (Or.inl (by omega))]
    rw [b2 c.heap.len (by omega)]
    exact a3
  · intro j n2 ps2 hget
    have hD := compile_params_D
      (Compiler.compile_simple_term_no_alloc
        { c with heap := ((c.heap.alloc (1 + (ps.length + 1))).1.write c.heap.len
            ⟨HeapTag.Arity, ps.length + 1⟩) } n (c.heap.len + 1))
      ps (c.heap.len + 2) hIdx2 hUn2 j n2 ps2 hget
    rw [e1]
    rw [b1, a1] at hD
    have harr : c.heap.len + (1 + (ps.length + 1)) + extraCells (TermList.take j ps)
        = c.heap.len + (2 + ps.length) + extraCells (TermList.take j ps) := by omega
    rw [harr] at hD
    exact hD
termination_by (sizeOf ps, 1)

theorem compile_params_D (c : Compiler) (params : TermList) (index : Nat)
    (hIdx : index + params.length ≤ c.heap.len)
    (hUn : ∀ j, j < params.length → c.heap.read (index + j) = HeapEntry.empty) :
    ∀ j n2 ps2, params.getIdx j = some (Term.Compound n2 ps2) →
      (Compiler.compile_params c params index).heap.read (index + j)
        = ⟨HeapTag.Reference, c.heap.len + extraCells (TermList.take j params)⟩
      ∧ (Compiler.compile_params c params index).heap.read
          (c.heap.len + extraCells (TermList.take j params))
        = ⟨HeapTag.Arity, ps2.length + 1⟩ := by
  match params with
  | TermList.nil =>
    intro j n2 ps2 hget
    exact nomatch hget
  | TermList.cons p rest =>
    have e : Compiler.compile_params c (TermList.cons p rest) index =
        Compiler.compile_params (Compiler.compile_param c p index) rest (index + 1) := rfl
    have hlencons : TermList.length (TermList.cons p rest) = rest.length + 1 := rfl
    have hidx : index < c.heap.len := by omega
    have hu : c.heap.read index = HeapEntry.empty := by
      have := hUn 0 (by omega)
      simpa using this
    have hplen : (Compiler.compile_param c p index).heap.len = c.heap.len + paramExtraCells p :=
      (compile_param_A c p index).1
    intro j n2 ps2 hget
    match j with
    | 0 =>
      have hp : p = Term.Compound n2 ps2 := by
        simpa [TermList.getIdx] using hget
      obtain ⟨hslot, harity⟩ := compile_param_D c p index hidx hu n2 ps2 hp
      have hpec : paramExtraCells p = 2 + ps2.length + extraCells ps2 := by
        rw [hp]; rfl
      have htake : extraCells (TermList.take 0 (TermList.cons p rest)) = 0 := rfl
      rw [e, htake]
      constructor
      · have hfr := compile_params_B (Compiler.compile_param c p index) rest (index + 1)
          index (by omega) (Or.inl (by omega))
        simp only [Nat.add_zero]
        rw [hfr, hslot]
      · have hfr := compile_params_B (Compiler.compile_param c p index) rest (index + 1)
          c.heap.len (by omega) (Or.inr (by omega))
        simp only [Nat.add_zero]
        rw [hfr, harity]
    | Nat.succ j' =>
      have hget' : rest.getIdx j' = some (Term.Compound n2 ps2) := by
        simpa [TermList.getIdx] using hget
      have hIdx' : (index + 1) + rest.length ≤ (Compiler.compile_param c p index).heap.len := by
        omega
      have hUn' : ∀ j2, j2 < rest.length →
          (Compiler.compile_param c p index).heap.read (index + 1 + j2) = HeapEntry.empty := by
        intro j2 hj2
        rw [compile_param_B c p index (index + 1 + j2) (by omega) (by omega)]
        have harr : index + 1 + j2 = index + (j2 + 1) := by omega
        rw [harr]
        exact hUn (j2 + 1) (by omega)
      obtain ⟨ih1, ih2⟩ := compile_params_D (Compiler.compile_param c p index) rest (index + 1)
        hIdx' hUn' j' n2 ps2 hget'
      have htake : extraCells (TermList.take (j' + 1) (TermList.cons p rest))
          = paramExtraCells p + extraCells (TermList.take j' rest) := rfl
      have harr1 : index + (j' + 1) = index + 1 + j' := by omega
      have harr2 : c.heap.len + extraCells (TermList.take (j' + 1) (TermList.cons p rest))
          = (Compiler.compile_param c p index).heap.len + extraCells (TermList.take j' rest) := by
        rw [htake, hplen]
        omega
      rw [e, harr1, harr2]
      exact ⟨ih1, ih2⟩
termination_by (sizeOf params, 0)

end

/-! ## Term-level specifications -/

def headArityOf : Term → Nat
  | Term.Simple _ => 1
  | Term.Compound _ ps => ps.length + 1

def cellsOfList : List Term → Nat
  | [] => 0
  | t :: rest => cellsOf t + cellsOfList rest

theorem cellsOf_pos (t : Term) : 0 < cellsOf t := by
  cases t with
  | Simple s =>
    show 0 < 2
    omega
  | Compound n ps =>
    show 0 < 2 + ps.length + extraCells ps
    omega

theorem compile_term_spec (c : Compiler) (t : Term) :
    (c.compile_term t).2 = c.heap.len
    ∧ (c.compile_term t).1.heap.len = c.heap.len + termCells t
    ∧ (∀ i, i < c.heap.len → (c.compile_term t).1.heap.read i = c.heap.read i)
    ∧ fieldsEq c (c.compile_term t).1
    ∧ (∀ x m, lookupAssoc (c.compile_term t).1.current_clause_variables x = some m →
        lookupAssoc c.current_clause_variables x = some m ∨ c.heap.len ≤ m)
    ∧ (∀ s i, c.symbol_table.get_index s = some i →
        (c.compile_term t).1.symbol_table.get_index s = some i)
    ∧ (SymGood c.symbol_table → SymGood (c.compile_term t).1.symbol_table) := by
  cases t with
  | Compound n ps =>
    obtain ⟨g0, g1, g2, g3, g4, g5⟩ := compile_cct_A c n ps
    have e : c.compile_term (Term.Compound n ps) = c.compile_compound_term n ps := rfl
    rw [e]
    exact ⟨g0, g1, fun i hi => compile_cct_B c n ps i hi, g2, g3, g4, g5⟩
  | Simple s =>
    have e : c.compile_term (Term.Simple s) =
        (Compiler.compile_simple_term_no_alloc { c with heap := (c.heap.alloc 1).1 } s c.heap.len,
         c.heap.len) := rfl
    obtain ⟨b1, b2, b3, b4, b5, b6⟩ :=
      csta_common { c with heap := (c.heap.alloc 1).1 } s c.heap.len
    rw [e]
    refine ⟨rfl, ?_, ?_, b3, ?_, b5, b6⟩
    · rw [b1]
      show (c.heap.alloc 1).1.len = c.heap.len + termCells (Term.Simple s)
      rw [Heap.len_alloc]
      rfl
    · intro i hi
      rw [b2 i (by omega)]
      exact Heap.read_alloc_old _ _ _ hi
    · intro x m hx
      rcases b4 x m hx with h | h
      · exact Or.inl h
      · exact Or.inr (Nat.le_of_eq h.symm)

theorem compile_term_C (c : Compiler) (t : Term) (hg : GoodHeap c.heap) (hm : MapOK c) :
    GoodHeap (c.compile_term t).1.heap ∧ MapOK (c.compile_term t).1 := by
  cases t with
  | Compound n ps =>
    have e : c.compile_term (Term.Compound n ps) = c.compile_compound_term n ps := rfl
    rw [e]
    exact compile_cct_C c n ps hg hm
  | Simple s =>
    have e : c.compile_term (Term.Simple s) =
        (Compiler.compile_simple_term_no_alloc { c with heap := (c.heap.alloc 1).1 } s c.heap.len,
         c.heap.len) := rfl
    rw [e]
    refine csta_invariants { c with heap := (c.heap.alloc 1).1 } s c.heap.len
      (goodHeap_alloc _ _ hg) (mapOK_heap_alloc c 1 hm) (by rw [Heap.len_alloc]; omega) ?_
    exact Heap.read_alloc_new _ _ _ (Nat.le_refl _)

/-- The top-level-term step shared by compile_clause and compile_query:
wrap a simple term in Arity(1), then compile the term. -/
theorem compile_top_step (c : Compiler) (t : Term) :
    (c.compile_top_term t).heap.len = c.heap.len + cellsOf t
    ∧ (∀ i, i < c.heap.len → (c.compile_top_term t).heap.read i = c.heap.read i)
    ∧ (c.compile_top_term t).heap.read c.heap.len = ⟨HeapTag.Arity, headArityOf t⟩
    ∧ fieldsEq c (c.compile_top_term t)
    ∧ (∀ x m, lookupAssoc (c.compile_top_term t).current_clause_variables x = some m →
        lookupAssoc c.current_clause_variables x = some m ∨ c.heap.len ≤ m)
    ∧ (∀ s i, c.symbol_table.get_index s = some i →
        (c.compile_top_term t).symbol_table.get_index s = some i)
    ∧ (SymGood c.symbol_table → SymGood (c.compile_top_term t).symbol_table)
    ∧ (GoodHeap c.heap → MapOK c → GoodHeap (c.compile_top_term t).heap ∧ MapOK (c.compile_top_term t)) := by
  cases t with
  | Compound n ps =>
    have e0 : c.compile_top_term (Term.Compound n ps) = (c.compile_term (Term.Compound n ps)).1 := rfl
    rw [e0]
    obtain ⟨t1, t2, t3, t4, t5, t6, t7⟩ := compile_term_spec c (Term.Compound n ps)
    have e : c.compile_term (Term.Compound n ps) = c.compile_compound_term n ps := rfl
    refine ⟨t2, t3, ?_, t4, t5, t6, t7, fun hg hm => compile_term_C c _ hg hm⟩
    rw [e]
    exact (compile_cct_D c n ps).1
  | Simple s =>
    have e0 : c.compile_top_term (Term.Simple s) =
        (c.create_arity_entry_for_simple_term.compile_term (Term.Simple s)).1 := rfl
    rw [e0]
    obtain ⟨a1, a2, a3, a4, a5, a6, a7, a8⟩ := create_arity_spec c
    obtain ⟨t1, t2, t3, t4, t5, t6, t7⟩ :=
      compile_term_spec c.create_arity_entry_for_simple_term (Term.Simple s)
    refine ⟨?_, ?_, ?_, ?_, ?_, ?_, ?_, ?_⟩
    · rw [t2, a1]
      show c.heap.len + 1 + termCells (Term.Simple s) = c.heap.len + cellsOf (Term.Simple s)
      rfl
    · intro i hi
      rw [t3 i (by omega), a2 i hi]
    · rw [t3 c.heap.len (by omega), a3]
      rfl
    · obtain ⟨f1, f2, f3, f4⟩ := t4
      obtain ⟨p1, p2, p3, p4⟩ := a4
      exact ⟨by rw [f1, p1], by rw [f2, p2], by rw [f3, p3], by rw [f4, p4]⟩
    · intro x m hx
      rcases t5 x m hx with h | h
      · rw [a6] at h
        exact Or.inl h
      · rw [a1] at h
        exact Or.inr (by omega)
    · intro s' i hs
      refine t6 s' i ?_
      rw [a5]
      exact hs
    · intro hgs
      refine t7 ?_
      rw [a5]
      exact hgs
    · intro hg hm
      refine compile_term_C _ _ (a7 hg) (a8 hm)

/-! ## Body and clause specifications -/

theorem compile_body_spec (c : Compiler) (body : List Term) :
    (c.compile_body body).1.heap.len = c.heap.len + cellsOfList body
    ∧ (∀ i, i < c.heap.len → (c.compile_body body).1.heap.read i = c.heap.read i)
    ∧ fieldsEq c (c.compile_body body).1
    ∧ (∀ x m, lookupAssoc (c.compile_body body).1.current_clause_variables x = some m →
        lookupAssoc c.current_clause_variables x = some m ∨ c.heap.len ≤ m)
    ∧ (∀ s i, c.symbol_table.get_index s = some i →
        (c.compile_body body).1.symbol_table.get_index s = some i)
    ∧ (SymGood c.symbol_table → SymGood (c.compile_body body).1.symbol_table)
    ∧ (GoodHeap c.heap → MapOK c →
        GoodHeap (c.compile_body body).1.heap ∧ MapOK (c.compile_body body).1) := by
  induction body generalizing c with
  | nil =>
    exact ⟨rfl, fun i hi => rfl, ⟨rfl, rfl, rfl, rfl⟩, fun x m hx => Or.inl hx,
      fun s i hs => hs, fun hg => hg, fun hg hm => ⟨hg, hm⟩⟩
  | cons t rest ih =>
    have e : (Compiler.compile_body c (t :: rest)).1
        = (Compiler.compile_body (c.compile_top_term t) rest).1 := rfl
    obtain ⟨s1, s2, s3, s4, s5, s6, s7, s8⟩ := compile_top_step c t
    obtain ⟨i1, i2, i3, i4, i5, i6, i7⟩ := ih (c.compile_top_term t)
    rw [e]
    refine ⟨?_, ?_, ?_, ?_, ?_, ?_, ?_⟩
    · rw [i1, s1]
      show c.heap.len + cellsOf t + cellsOfList rest = c.heap.len + (cellsOf t + cellsOfList rest)
      omega
    · intro i hi
      rw [i2 i (by omega), s2 i hi]
    · obtain ⟨f1, f2, f3, f4⟩ := i3
      obtain ⟨p1, p2, p3, p4⟩ := s4
      exact ⟨by rw [f1, p1], by rw [f2, p2], by rw [f3, p3], by rw [f4, p4]⟩
    · intro x m hx
      rcases i4 x m hx with h | h
      · rcases s5 x m h with h2 | h2
        · exact Or.inl h2
        · exact Or.inr h2
      · rw [s1] at h
        exact Or.inr (by omega)
    · intro s i hs
      exact i5 s i (s6 s i hs)
    · intro hgs
      exact i6 (s7 hgs)
    · intro hg hm
      obtain ⟨hg', hm'⟩ := s8 hg hm
      exact i7 hg' hm'

/-! ## deref and get_subterms depend only on the heap -/

theorem deref_once_heap_eq (c c' : Compiler) (h : c.heap = c'.heap) (e : HeapEntry) :
    c.deref_once e = c'.deref_once e := by
  unfold Compiler.deref_once
  rw [h]

theorem derefFuel_heap_eq (c c' : Compiler) (h : c.heap = c'.heap) :
    ∀ fuel e, c.derefFuel e fuel = c'.derefFuel e fuel := by
  intro fuel
  induction fuel with
  | zero => intro e; rfl
  | succ n ih =>
    intro e
    unfold Compiler.derefFuel
    rw [deref_once_heap_eq c c' h e]
    by_cases hv : e.is_var_or_unify
    · simp only [hv]
      by_cases hd : c'.deref_once e = e
      · simp [hd]
      · simp [hd, ih]
    · simp only [hv]
      simp

theorem deref_heap_eq (c c' : Compiler) (h : c.heap = c'.heap) (e : HeapEntry) :
    c.deref e = c'.deref e := by
  unfold Compiler.deref
  rw [derefFuel_heap_eq c c' h, h]

theorem get_subterms_heap_eq (c c' : Compiler) (h : c.heap = c'.heap) (e : HeapEntry) :
    c.get_subterms e = c'.get_subterms e := by
  show (List.range ((c.deref_once e).data)).map
      (fun i =>
        let entry := c.deref (c.heap.read (e.data + 1 + i))
        if entry.tag = HeapTag.Reference then c.deref_once entry else entry)
    = (List.range ((c'.deref_once e).data)).map
      (fun i =>
        let entry := c'.deref (c'.heap.read (e.data + 1 + i))
        if entry.tag = HeapTag.Reference then c'.deref_once entry else entry)
  rw [deref_once_heap_eq c c' h e]
  refine congrArg (fun f => (List.range ((c'.deref_once e).data)).map f) ?_
  funext i
  show (let entry := c.deref (c.heap.read (e.data + 1 + i))
        if entry.tag = HeapTag.Reference then c.deref_once entry else entry)
    = (let entry := c'.deref (c'.heap.read (e.data + 1 + i))
        if entry.tag = HeapTag.Reference then c'.deref_once entry else entry)
  simp only []
  rw [h, deref_heap_eq c c' h]
  by_cases ht : (c'.deref (c'.heap.read (e.data + 1 + i))).tag = HeapTag.Reference
  · simp only [ht, if_pos]
    rw [deref_once_heap_eq c c' h]
  · simp only [ht]
    simp

/-- What compile_clause does: it appends exactly one descriptor, whose neck is
the absolute heap index after the head, whose terms start with a Reference to
base, and whose head_subterms are the get_subterms of the head reference. -/
theorem compile_clause_spec (c : Compiler) (cl : Clause) :
    (∃ d restTerms,
      (c.compile_clause cl).clauses = c.clauses ++ [d]
      ∧ d.base = c.heap.len
      ∧ d.neck = c.heap.len + cellsOf cl.head
      ∧ d.length = cellsOf cl.head + cellsOfList cl.body
      ∧ d.terms = (⟨HeapTag.Reference, c.heap.len⟩ : HeapEntry) :: restTerms
      ∧ d.head_subterms = (c.compile_clause cl).get_subterms ⟨HeapTag.Reference, c.heap.len⟩)
    ∧ (c.compile_clause cl).heap.len = c.heap.len + (cellsOf cl.head + cellsOfList cl.body)
    ∧ (∀ i, i < c.heap.len → (c.compile_clause cl).heap.read i = c.heap.read i)
    ∧ (c.compile_clause cl).heap.read c.heap.len = ⟨HeapTag.Arity, headArityOf cl.head⟩
    ∧ (∀ x m, lookupAssoc (c.compile_clause cl).current_clause_variables x = some m →
        c.heap.len ≤ m)
    ∧ (c.compile_clause cl).queries = c.queries
    ∧ (c.compile_clause cl).spines = c.spines
    ∧ (c.compile_clause cl).trail = c.trail
    ∧ (∀ s i, c.symbol_table.get_index s = some i →
        (c.compile_clause cl).symbol_table.get_index s = some i)
    ∧ (SymGood c.symbol_table → SymGood (c.compile_clause cl).symbol_table)
    ∧ (GoodHeap c.heap →
        GoodHeap (c.compile_clause cl).heap ∧ MapOK (c.compile_clause cl)) := by
  have hm0 : MapOK ({ c with current_clause_variables := [] } : Compiler) := by
    intro x m hx
    cases hx
  obtain ⟨s1, s2, s3, s4, s5, s6, s7, s8⟩ :=
    compile_top_step ({ c with current_clause_variables := [] } : Compiler) cl.head
  obtain ⟨b1, b2, b3, b4, b5, b6, b7⟩ :=
    compile_body_spec (({ c with current_clause_variables := [] } : Compiler).compile_top_term cl.head) cl.body
  have hch : ({ c with current_clause_variables := [] } : Compiler).heap.len = c.heap.len := rfl
  have hchr : ∀ i, ({ c with current_clause_variables := [] } : Compiler).heap.read i
      = c.heap.read i := fun i => rfl
  simp only [hch, hchr] at s1 s2 s3 s5
  have hpos : 0 < cellsOf cl.head := cellsOf_pos cl.head
  have e : c.compile_clause cl =
      { ((({ c with current_clause_variables := [] } : Compiler).compile_top_term cl.head).compile_body cl.body).1 with
        clauses :=
          ((({ c with current_clause_variables := [] } : Compiler).compile_top_term cl.head).compile_body cl.body).1.clauses ++
          [⟨c.heap.len,
            ((({ c with current_clause_variables := [] } : Compiler).compile_top_term cl.head).compile_body cl.body).1.heap.len - c.heap.len,
            (({ c with current_clause_variables := [] } : Compiler).compile_top_term cl.head).heap.len,
            (c.heap.len :: ((({ c with current_clause_variables := [] } : Compiler).compile_top_term cl.head).compile_body cl.body).2).map
              (fun index => (⟨HeapTag.Reference, index⟩ : HeapEntry)),
            ((({ c with current_clause_variables := [] } : Compiler).compile_top_term cl.head).compile_body cl.body).1.get_subterms
              (((c.heap.len :: ((({ c with current_clause_variables := [] } : Compiler).compile_top_term cl.head).compile_body cl.body).2).map
                (fun index => (⟨HeapTag.Reference, index⟩ : HeapEntry))).getD 0 HeapEntry.empty)⟩] } := rfl
  rw [e]
  constructor
  · apply Exists.intro
    apply Exists.intro
    constructor
    · rw [b3.1, s4.1]
    constructor
    · rfl
    constructor
    · exact s1
    constructor
    · show ((({ c with current_clause_variables := [] } : Compiler).compile_top_term cl.head).compile_body cl.body).1.heap.len - c.heap.len
        = cellsOf cl.head + cellsOfList cl.body
      rw [b1, s1]
      omega
    constructor
    · rfl
    · have hterm0 : ((c.heap.len :: ((({ c with current_clause_variables := [] } : Compiler).compile_top_term cl.head).compile_body cl.body).2).map
            (fun index => (⟨HeapTag.Reference, index⟩ : HeapEntry))).getD 0 HeapEntry.empty
          = (⟨HeapTag.Reference, c.heap.len⟩ : HeapEntry) := rfl
      show ((({ c with current_clause_variables := [] } : Compiler).compile_top_term cl.head).compile_body cl.body).1.get_subterms
          (((c.heap.len :: ((({ c with current_clause_variables := [] } : Compiler).compile_top_term cl.head).compile_body cl.body).2).map
            (fun index => (⟨HeapTag.Reference, index⟩ : HeapEntry))).getD 0 HeapEntry.empty) = _
      rw [hterm0]
      refine get_subterms_heap_eq _ _ ?_ _
      rfl
  refine ⟨?_, ?_, ?_, ?_, ?_, ?_, ?_, ?_, ?_, ?_⟩
  · show ((({ c with current_clause_variables := [] } : Compiler).compile_top_term cl.head).compile_body cl.body).1.heap.len = _
    rw [b1, s1]
    show c.heap.len + cellsOf cl.head + cellsOfList cl.body
      = c.heap.len + (cellsOf cl.head + cellsOfList cl.body)
    omega
  · intro i hi
    show ((({ c with current_clause_variables := [] } : Compiler).compile_top_term cl.head).compile_body cl.body).1.heap.read i = _
    rw [b2 i (by omega)]
    exact s2 i hi
  · show ((({ c with current_clause_variables := [] } : Compiler).compile_top_term cl.head).compile_body cl.body).1.heap.read c.heap.len = _
    rw [b2 c.heap.len (by omega)]
    exact s3
  · intro x m hx
    have hx' : lookupAssoc ((({ c with current_clause_variables := [] } : Compiler).compile_top_term cl.head).compile_body cl.body).1.current_clause_variables x = some m := hx
    rcases b4 x m hx' with h | h
    · rcases s5 x m h with h2 | h2
      · cases h2
      · exact h2
    · rw [s1] at h
      omega
  · show ((({ c with current_clause_variables := [] } : Compiler).compile_top_term cl.head).compile_body cl.body).1.queries = _
    rw [b3.2.1, s4.2.1]
  · show ((({ c with current_clause_variables := [] } : Compiler).compile_top_term cl.head).compile_body cl.body).1.spines = _
    rw [b3.2.2.1, s4.2.2.1]
  · show ((({ c with current_clause_variables := [] } : Compiler).compile_top_term cl.head).compile_body cl.body).1.trail = _
    rw [b3.2.2.2, s4.2.2.2]
  · intro s i hs
    exact b5 s i (s6 s i hs)
  · intro hgs
    exact b6 (s7 hgs)
  · intro hg
    obtain ⟨hg2, hm2⟩ := s8 hg hm0
    obtain ⟨hg3, hm3⟩ := b7 hg2 hm2
    exact ⟨hg3, fun x m hx => hm3 x m hx⟩

/-! ## Query compilation and the initial spine -/

theorem compile_sub_queries_spec (c : Compiler) (qs : List Term) :
    (c.compile_sub_queries qs).1.heap.len = c.heap.len + cellsOfList qs
    ∧ (∀ i, i < c.heap.len → (c.compile_sub_queries qs).1.heap.read i = c.heap.read i)
    ∧ fieldsEq c (c.compile_sub_queries qs).1
    ∧ (∀ s i, c.symbol_table.get_index s = some i →
        (c.compile_sub_queries qs).1.symbol_table.get_index s = some i)
    ∧ (SymGood c.symbol_table → SymGood (c.compile_sub_queries qs).1.symbol_table)
    ∧ (GoodHeap c.heap → MapOK c →
        GoodHeap (c.compile_sub_queries qs).1.heap ∧ MapOK (c.compile_sub_queries qs).1)
    ∧ (∀ e ∈ (c.compile_sub_queries qs).2, e.tag = HeapTag.Reference) := by
  induction qs generalizing c with
  | nil =>
    refine ⟨rfl, fun i hi => rfl, ⟨rfl, rfl, rfl, rfl⟩, fun s i hs => hs, fun hg => hg,
      fun hg hm => ⟨hg, hm⟩, ?_⟩
    intro e he
    cases he
  | cons t rest ih =>
    have e : c.compile_sub_queries (t :: rest)
        = (((c.compile_top_term t).compile_sub_queries rest).1,
           (⟨HeapTag.Reference, c.heap.len⟩ : HeapEntry)
             :: ((c.compile_top_term t).compile_sub_queries rest).2) := rfl
    obtain ⟨s1, s2, s3, s4, s5, s6, s7, s8⟩ := compile_top_step c t
    obtain ⟨i1, i2, i3, i4, i5, i6, i7⟩ := ih (c.compile_top_term t)
    rw [e]
    refine ⟨?_, ?_, ?_, ?_, ?_, ?_, ?_⟩
    · show ((c.compile_top_term t).compile_sub_queries rest).1.heap.len = _
      rw [i1, s1]
      show c.heap.len + cellsOf t + cellsOfList rest = c.heap.len + (cellsOf t + cellsOfList rest)
      omega
    · intro i hi
      show ((c.compile_top_term t).compile_sub_queries rest).1.heap.read i = _
      rw [i2 i (by omega)]
      exact s2 i hi
    · obtain ⟨f1, f2, f3, f4⟩ := i3
      obtain ⟨p1, p2, p3, p4⟩ := s4
      exact ⟨by rw [f1, p1], by rw [f2, p2], by rw [f3, p3], by rw [f4, p4]⟩
    · intro s i hs
      exact i4 s i (s6 s i hs)
    · intro hgs
      exact i5 (s7 hgs)
    · intro hg hm
      obtain ⟨hg', hm'⟩ := s8 hg hm
      exact i6 hg' hm'
    · intro e2 he2
      rcases List.mem_cons.mp he2 with h | h
      · rw [h]
      · exact i7 e2 h

/-- Whether all terms of a query descriptor are Reference entries. -/
def QTermsRef (q : QueryDescriptor) : Prop :=
  ∀ e ∈ q.terms, e.tag = HeapTag.Reference

theorem compile_query_spec (c : Compiler) (q : Query) :
    (∀ q' ∈ (c.compile_query q).queries, q' ∈ c.queries ∨ QTermsRef q')
    ∧ (∀ q' ∈ c.queries, q' ∈ (c.compile_query q).queries)
    ∧ (c.compile_query q).clauses = c.clauses
    ∧ (c.compile_query q).spines = c.spines
    ∧ (c.compile_query q).trail = c.trail
    ∧ (∀ s i, c.symbol_table.get_index s = some i →
        (c.compile_query q).symbol_table.get_index s = some i)
    ∧ (SymGood c.symbol_table → SymGood (c.compile_query q).symbol_table)
    ∧ (GoodHeap c.heap → MapOK c →
        GoodHeap (c.compile_query q).heap ∧ MapOK (c.compile_query q)) := by
  have e : c.compile_query q =
      { (c.compile_sub_queries q.sub_queries).1 with
        queries := (c.compile_sub_queries q.sub_queries).1.queries ++
          [⟨c.heap.len, (c.compile_sub_queries q.sub_queries).1.heap.len - c.heap.len,
            (c.compile_sub_queries q.sub_queries).2⟩] } := rfl
  obtain ⟨s1, s2, s3, s4, s5, s6, s7⟩ := compile_sub_queries_spec c q.sub_queries
  rw [e]
  refine ⟨?_, ?_, ?_, ?_, ?_, ?_, ?_, ?_⟩
  · intro q' hq'
    have hq2 : q' ∈ (c.compile_sub_queries q.sub_queries).1.queries ++
        [⟨c.heap.len, (c.compile_sub_queries q.sub_queries).1.heap.len - c.heap.len,
          (c.compile_sub_queries q.sub_queries).2⟩] := hq'
    rcases List.mem_append.mp hq2 with h | h
    · rw [s3.2.1] at h
      exact Or.inl h
    · rcases List.mem_singleton.mp h with h2
      refine Or.inr ?_
      rw [h2]
      intro e2 he2
      exact s7 e2 he2
  · intro q' hq'
    refine List.mem_append.mpr (Or.inl ?_)
    rw [s3.2.1]
    exact hq'
  · show (c.compile_sub_queries q.sub_queries).1.clauses = _
    exact s3.1
  · show (c.compile_sub_queries q.sub_queries).1.spines = _
    exact s3.2.2.1
  · show (c.compile_sub_queries q.sub_queries).1.trail = _
    exact s3.2.2.2
  · exact s4
  · exact s5
  · intro hg hm
    obtain ⟨hg', hm'⟩ := s6 hg hm
    exact ⟨hg', fun x m hx => hm' x m hx⟩

theorem foldl_spine_aux (base tl : Nat) (uc : List Nat) (l : List QueryDescriptor) :
    ∀ (c : Compiler), c.trail.length = tl →
      (l.foldl (fun c query =>
        { c with spines := c.spines ++ [Spine.new base c.trail.length query.terms uc 0] }) c).heap = c.heap
      ∧ (l.foldl (fun c query =>
        { c with spines := c.spines ++ [Spine.new base c.trail.length query.terms uc 0] }) c).clauses = c.clauses
      ∧ (l.foldl (fun c query =>
        { c with spines := c.spines ++ [Spine.new base c.trail.length query.terms uc 0] }) c).queries = c.queries
      ∧ (l.foldl (fun c query =>
        { c with spines := c.spines ++ [Spine.new base c.trail.length query.terms uc 0] }) c).symbol_table = c.symbol_table
      ∧ (l.foldl (fun c query =>
        { c with spines := c.spines ++ [Spine.new base c.trail.length query.terms uc 0] }) c).current_clause_variables = c.current_clause_variables
      ∧ (l.foldl (fun c query =>
        { c with spines := c.spines ++ [Spine.new base c.trail.length query.terms uc 0] }) c).trail = c.trail
      ∧ (∀ sp ∈ c.spines, sp ∈ (l.foldl (fun c query =>
          { c with spines := c.spines ++ [Spine.new base c.trail.length query.terms uc 0] }) c).spines)
      ∧ (∀ q ∈ l, Spine.new base tl q.terms uc 0 ∈ (l.foldl (fun c query =>
          { c with spines := c.spines ++ [Spine.new base c.trail.length query.terms uc 0] }) c).spines) := by
  induction l with
  | nil =>
    intro c htl
    refine ⟨rfl, rfl, rfl, rfl, rfl, rfl, fun sp hsp => hsp, ?_⟩
    intro q hq
    cases hq
  | cons q rest ih =>
    intro c htl
    obtain ⟨i1, i2, i3, i4, i5, i6, i7, i8⟩ :=
      ih { c with spines := c.spines ++ [Spine.new base c.trail.length q.terms uc 0] } htl
    refine ⟨i1, i2, i3, i4, i5, i6, ?_, ?_⟩
    · intro sp hsp
      exact i7 sp (List.mem_append.mpr (Or.inl hsp))
    · intro q' hq'
      rcases List.mem_cons.mp hq' with h | h
      · rw [h, ← htl]
        exact i7 _ (List.mem_append.mpr (Or.inr (List.mem_singleton.mpr rfl)))
      · exact i8 q' h

theorem create_initial_spine_spec (c : Compiler) (qs : List QueryDescriptor) :
    (c.create_initial_spine qs).heap = c.heap
    ∧ (c.create_initial_spine qs).clauses = c.clauses
    ∧ (c.create_initial_spine qs).queries = c.queries
    ∧ (c.create_initial_spine qs).symbol_table = c.symbol_table
    ∧ (c.create_initial_spine qs).current_clause_variables = c.current_clause_variables
    ∧ (∀ q ∈ qs, Spine.new c.heap.len c.trail.length q.terms (List.range c.clauses.length) 0
        ∈ (c.create_initial_spine qs).spines) := by
  have e : c.create_initial_spine qs =
      qs.reverse.foldl (fun cc query =>
        { cc with spines := cc.spines ++
            [Spine.new c.heap.len cc.trail.length query.terms (List.range c.clauses.length) 0] }) c := rfl
  obtain ⟨i1, i2, i3, i4, i5, i6, i7, i8⟩ :=
    foldl_spine_aux c.heap.len c.trail.length (List.range c.clauses.length) qs.reverse c rfl
  rw [e]
  refine ⟨i1, i2, i3, i4, i5, ?_⟩
  intro q hq
  exact i8 q (List.mem_reverse.mpr hq)

/-! ## Whole-compilation invariants -/

/-- The standing invariant of the compiler state. -/
def CompilerInv (c : Compiler) : Prop :=
  GoodHeap c.heap ∧ MapOK c ∧ SymGood c.symbol_table

theorem inv_new : CompilerInv Compiler.new := by
  refine ⟨?_, ?_, symGood_new⟩
  · intro i
    refine goodEntry_oob _ _ ?_
    rfl
  · intro x m hx
    cases hx

theorem compile_clause_inv (c : Compiler) (cl : Clause) (h : CompilerInv c) :
    CompilerInv (c.compile_clause cl) := by
  obtain ⟨hg, hm, hs⟩ := h
  obtain ⟨_, _, _, _, _, _, _, _, _, c10, c11⟩ := compile_clause_spec c cl
  obtain ⟨hg', hm'⟩ := c11 hg
  exact ⟨hg', hm', c10 hs⟩

theorem compile_query_inv (c : Compiler) (q : Query) (h : CompilerInv c) :
    CompilerInv (c.compile_query q) := by
  obtain ⟨hg, hm, hs⟩ := h
  obtain ⟨_, _, _, _, _, _, q7, q8⟩ := compile_query_spec c q
  obtain ⟨hg', hm'⟩ := q8 hg hm
  exact ⟨hg', hm', q7 hs⟩

theorem foldl_clauses_inv (cs : List Clause) : ∀ c, CompilerInv c →
    CompilerInv (cs.foldl Compiler.compile_clause c) := by
  induction cs with
  | nil => intro c h; exact h
  | cons cl rest ih =>
    intro c h
    exact ih (c.compile_clause cl) (compile_clause_inv c cl h)

theorem foldl_queries_inv (qs : List Query) : ∀ c, CompilerInv c →
    CompilerInv (qs.foldl Compiler.compile_query c) := by
  induction qs with
  | nil => intro c h; exact h
  | cons q rest ih =>
    intro c h
    exact ih (c.compile_query q) (compile_query_inv c q h)

theorem create_initial_spine_inv (c : Compiler) (qs : List QueryDescriptor) (h : CompilerInv c) :
    CompilerInv (c.create_initial_spine qs) := by
  obtain ⟨hg, hm, hs⟩ := h
  obtain ⟨e1, e2, e3, e4, e5, e6⟩ := create_initial_spine_spec c qs
  refine ⟨?_, ?_, ?_⟩
  · rw [e1]; exact hg
  · intro x m hx
    rw [e5] at hx
    obtain ⟨h1, h2⟩ := hm x m hx
    rw [e1]
    exact ⟨h1, h2⟩
  · rw [e4]; exact hs

theorem compile_inv (c : Compiler) (p : Program) (h : CompilerInv c) : CompilerInv (c.compile p) := by
  have e : c.compile p =
      ((p.queries.foldl Compiler.compile_query (p.clauses.foldl Compiler.compile_clause c))).create_initial_spine
        (p.queries.foldl Compiler.compile_query (p.clauses.foldl Compiler.compile_clause c)).queries := rfl
  rw [e]
  exact create_initial_spine_inv _ _
    (foldl_queries_inv p.queries _ (foldl_clauses_inv p.clauses c h))

/-! ## The while loop of deref stabilizes on well-formed heaps -/

theorem derefFuel_fixpoint (c : Compiler) (e : HeapEntry) (h : c.deref_once e = e) :
    ∀ f, c.derefFuel e f = e := by
  intro f
  cases f with
  | zero => rfl
  | succ n =>
    unfold Compiler.derefFuel
    by_cases hv : e.is_var_or_unify
    · simp [hv, h]
    · simp [hv]

theorem derefFuel_not_var (c : Compiler) (e : HeapEntry)
    (h : e.is_var_or_unify = false) : ∀ f, c.derefFuel e f = e := by
  intro f
  cases f with
  | zero => rfl
  | succ n =>
    unfold Compiler.derefFuel
    simp [h]

theorem deref_stable_of_good (c : Compiler) (hg : GoodHeap c.heap) (i : Nat) :
    (∀ f, 2 ≤ f → c.derefFuel (c.heap.read i) f = c.derefFuel (c.heap.read i) 2)
    ∧ ((c.derefFuel (c.heap.read i) 2).is_var_or_unify = false
        ∨ c.deref_once (c.derefFuel (c.heap.read i) 2) = c.derefFuel (c.heap.read i) 2) := by
  obtain ⟨g1, g2, g3⟩ := hg i
  by_cases hv : (c.heap.read i).is_var_or_unify
  · have htag : (c.heap.read i).tag = HeapTag.Variable ∨ (c.heap.read i).tag = HeapTag.Unify := by
      unfold HeapEntry.is_var_or_unify at hv
      rcases Bool.or_eq_true_iff.mp hv with h | h
      · exact Or.inl (by simpa using h)
      · exact Or.inr (by simpa using h)
    rcases htag with htag | htag
    · have hdata : (c.heap.read i).data = i := g1 htag
      have hfix : c.deref_once (c.heap.read i) = c.heap.read i := by
        unfold Compiler.deref_once
        rw [hdata]
      constructor
      · intro f hf
        rw [derefFuel_fixpoint c _ hfix, derefFuel_fixpoint c _ hfix]
      · rw [derefFuel_fixpoint c _ hfix]
        exact Or.inr hfix
    · have hval : c.heap.read ((c.heap.read i).data)
          = ⟨HeapTag.Variable, (c.heap.read i).data⟩ := g2 htag
      have hstep : c.deref_once (c.heap.read i)
          = ⟨HeapTag.Variable, (c.heap.read i).data⟩ := by
        unfold Compiler.deref_once
        exact hval
      have hne : c.deref_once (c.heap.read i) ≠ c.heap.read i := by
        rw [hstep]
        intro hcon
        have : HeapTag.Variable = HeapTag.Unify := by
          have := congrArg HeapEntry.tag hcon
          simpa [htag] using this
        cases this
      have hvfix : c.deref_once (⟨HeapTag.Variable, (c.heap.read i).data⟩ : HeapEntry)
          = ⟨HeapTag.Variable, (c.heap.read i).data⟩ := by
        unfold Compiler.deref_once
        exact hval
      have hcompute : ∀ f, 1 ≤ f → c.derefFuel (c.heap.read i) (f + 1)
          = (⟨HeapTag.Variable, (c.heap.read i).data⟩ : HeapEntry) := by
        intro f hf
        unfold Compiler.derefFuel
        simp only [hv, if_true]
        rw [if_neg hne, hstep]
        exact derefFuel_fixpoint c _ hvfix f
      constructor
      · intro f hf
        obtain ⟨f', rfl⟩ : ∃ f', f = f' + 1 := ⟨f - 1, by omega⟩
        rw [hcompute f' (by omega)]
        rw [show (2 : Nat) = 1 + 1 from rfl, hcompute 1 (by omega)]
      · rw [show (2 : Nat) = 1 + 1 from rfl, hcompute 1 (by omega)]
        exact Or.inr hvfix
  · have hv' : (c.heap.read i).is_var_or_unify = false := by
      simpa using hv
    constructor
    · intro f hf
      rw [derefFuel_not_var c _ hv', derefFuel_not_var c _ hv']
    · rw [derefFuel_not_var c _ hv']
      exact Or.inl hv'

/-! ## Descriptor properties across a whole compilation -/

instance : Inhabited Term := ⟨Term.Simple (SimpleTerm.Atom "")⟩

instance : Inhabited Clause := ⟨⟨Term.Simple (SimpleTerm.Atom ""), []⟩⟩

theorem getD_append_lt_aux {α : Type} [Inhabited α] (l l2 : List α) (k : Nat)
    (hk : k < l.length) : (l ++ l2).getD k default = l.getD k default := by
  simp [List.getD, List.getElem?_append, hk]

theorem getD_append_self_aux {α : Type} [Inhabited α] (l : List α) (d : α) :
    (l ++ [d]).getD l.length default = d := by
  simp [List.getD, List.getElem?_append_right (Nat.le_refl l.length)]

theorem get_subterms_length (c : Compiler) (e : HeapEntry) :
    (c.get_subterms e).length = (c.heap.read e.data).data := by
  show ((List.range ((c.deref_once e).data)).map _).length = _
  rw [List.length_map, List.length_range]
  rfl

/-- The per-clause descriptor facts used for the invariant and indexing claims. -/
def DescProp (cl : Clause) (d : ClauseDescriptor) : Prop :=
  d.base ≤ d.neck ∧ d.neck ≤ d.base + d.length
  ∧ d.terms.getD 0 HeapEntry.empty = ⟨HeapTag.Reference, d.base⟩
  ∧ d.head_subterms.length = headArityOf cl.head

theorem compile_clause_descriptor (c : Compiler) (cl : Clause) :
    (c.compile_clause cl).clauses.length = c.clauses.length + 1
    ∧ (∀ k, k < c.clauses.length →
        (c.compile_clause cl).clauses.getD k default = c.clauses.getD k default)
    ∧ DescProp cl ((c.compile_clause cl).clauses.getD c.clauses.length default) := by
  obtain ⟨⟨d, restTerms, hcl, hbase, hneck, hlength, hterms, hsub⟩,
    c2, c3, c4, c5, c6, c7, c8, c9, c10, c11⟩ := compile_clause_spec c cl
  have hget : (c.compile_clause cl).clauses.getD c.clauses.length default = d := by
    rw [hcl]
    exact getD_append_self_aux c.clauses d
  refine ⟨?_, ?_, ?_⟩
  · rw [hcl]
    simp
  · intro k hk
    rw [hcl]
    exact getD_append_lt_aux c.clauses [d] k hk
  · rw [hget]
    refine ⟨?_, ?_, ?_, ?_⟩
    · rw [hbase, hneck]
      omega
    · rw [hbase, hneck, hlength]
      omega
    · rw [hterms, hbase]
      rfl
    · rw [hsub, get_subterms_length]
      show ((c.compile_clause cl).heap.read c.heap.len).data = headArityOf cl.head
      rw [c4]

theorem foldl_clauses_desc (cs : List Clause) : ∀ c : Compiler,
    (cs.foldl Compiler.compile_clause c).clauses.length = c.clauses.length + cs.length
    ∧ (∀ k, k < c.clauses.length →
        (cs.foldl Compiler.compile_clause c).clauses.getD k default = c.clauses.getD k default)
    ∧ (∀ k, k < cs.length →
        DescProp (cs.getD k default)
          ((cs.foldl Compiler.compile_clause c).clauses.getD (c.clauses.length + k) default)) := by
  induction cs with
  | nil =>
    intro c
    refine ⟨rfl, fun k hk => rfl, ?_⟩
    intro k hk
    cases hk
  | cons cl rest ih =>
    intro c
    simp only [List.foldl_cons]
    obtain ⟨d1, d2, d3⟩ := compile_clause_descriptor c cl
    obtain ⟨i1, i2, i3⟩ := ih (c.compile_clause cl)
    refine ⟨?_, ?_, ?_⟩
    · rw [i1, d1]
      simp [List.length_cons]
      omega
    · intro k hk
      rw [i2 k (by omega), d2 k hk]
    · intro k hk
      match k with
      | 0 =>
        have hcl0 : (cl :: rest).getD 0 default = cl := rfl
        rw [hcl0]
        have : (rest.foldl Compiler.compile_clause (c.compile_clause cl)).clauses.getD
            (c.clauses.length + 0) default
            = (c.compile_clause cl).clauses.getD c.clauses.length default := by
          rw [Nat.add_zero]
          exact i2 c.clauses.length (by omega)
        rw [this]
        exact d3
      | Nat.succ k' =>
        have hclk : (cl :: rest).getD (k' + 1) default = rest.getD k' default := rfl
        rw [hclk]
        have hlen : (cl :: rest).length = rest.length + 1 := rfl
        have harr : c.clauses.length + (k' + 1) = (c.compile_clause cl).clauses.length + k' := by
          rw [d1]
          omega
        rw [harr]
        exact i3 k' (by omega)

theorem foldl_queries_clauses (qs : List Query) : ∀ c : Compiler,
    (qs.foldl Compiler.compile_query c).clauses = c.clauses := by
  induction qs with
  | nil => intro c; rfl
  | cons q rest ih =>
    intro c
    simp only [List.foldl_cons]
    rw [ih (c.compile_query q)]
    exact (compile_query_spec c q).2.2.1

theorem foldl_queries_ref (qs : List Query) : ∀ c : Compiler,
    (∀ q' ∈ c.queries, QTermsRef q') →
    ∀ q' ∈ (qs.foldl Compiler.compile_query c).queries, QTermsRef q' := by
  induction qs with
  | nil => intro c h; exact h
  | cons q rest ih =>
    intro c h
    simp only [List.foldl_cons]
    refine ih (c.compile_query q) ?_
    intro q' hq'
    rcases (compile_query_spec c q).1 q' hq' with h2 | h2
    · exact h q' h2
    · exact h2

/-! ## Helper: the Constant cell written for a top-level atom -/

theorem compile_top_term_atom (c : Compiler) (a : String) :
    (c.compile_top_term (Term.Simple (SimpleTerm.Atom a))).heap.read (c.heap.len + 1)
      = ⟨HeapTag.Constant, (c.symbol_table.intern a).2⟩
    ∧ (c.compile_top_term (Term.Simple (SimpleTerm.Atom a))).symbol_table
      = (c.symbol_table.intern a).1 := by
  obtain ⟨a1, a2, a3, a4, a5, a6, a7, a8⟩ := create_arity_spec c
  have e0 : c.compile_top_term (Term.Simple (SimpleTerm.Atom a))
      = Compiler.compile_simple_term_no_alloc
          { c.create_arity_entry_for_simple_term with
            heap := (c.create_arity_entry_for_simple_term.heap.alloc 1).1 }
          (SimpleTerm.Atom a) c.create_arity_entry_for_simple_term.heap.len := rfl
  have hidx : c.create_arity_entry_for_simple_term.heap.len <
      ({ c.create_arity_entry_for_simple_term with
          heap := (c.create_arity_entry_for_simple_term.heap.alloc 1).1 } : Compiler).heap.len := by
    show c.create_arity_entry_for_simple_term.heap.len <
      (c.create_arity_entry_for_simple_term.heap.alloc 1).1.len
    rw [Heap.len_alloc]
    omega
  obtain ⟨h1, h2, h3⟩ := csta_atom
    { c.create_arity_entry_for_simple_term with
      heap := (c.create_arity_entry_for_simple_term.heap.alloc 1).1 } a
    c.create_arity_entry_for_simple_term.heap.len hidx
  rw [e0]
  constructor
  · have harr : c.heap.len + 1 = c.create_arity_entry_for_simple_term.heap.len := by
      rw [a1]
    rw [harr, h1]
    show (⟨HeapTag.Constant,
        (({ c.create_arity_entry_for_simple_term with
            heap := (c.create_arity_entry_for_simple_term.heap.alloc 1).1 } : Compiler).symbol_table.intern a).2⟩ : HeapEntry)
      = ⟨HeapTag.Constant, (c.symbol_table.intern a).2⟩
    rw [show ({ c.create_arity_entry_for_simple_term with
        heap := (c.create_arity_entry_for_simple_term.heap.alloc 1).1 } : Compiler).symbol_table
      = c.symbol_table from a5]
  · rw [h2]
    show (({ c.create_arity_entry_for_simple_term with
        heap := (c.create_arity_entry_for_simple_term.heap.alloc 1).1 } : Compiler).symbol_table.intern a).1
      = (c.symbol_table.intern a).1
    rw [show ({ c.create_arity_entry_for_simple_term with
        heap := (c.create_arity_entry_for_simple_term.heap.alloc 1).1 } : Compiler).symbol_table
      = c.symbol_table from a5]

/-- get_subterms, unfolded: one dereferenced entry per declared-arity slot. -/
theorem get_subterms_def (c : Compiler) (e : HeapEntry) :
    c.get_subterms e = (List.range ((c.heap.read e.data).data)).map
      (fun i =>
        let entry := c.deref (c.heap.read (e.data + 1 + i))
        if entry.tag = HeapTag.Reference then c.deref_once entry else entry) := rfl

theorem compile_clauses_eq (c : Compiler) (p : Program) :
    (c.compile p).clauses = (p.clauses.foldl Compiler.compile_clause c).clauses := by
  have e : c.compile p =
      (p.queries.foldl Compiler.compile_query (p.clauses.foldl Compiler.compile_clause c)).create_initial_spine
        (p.queries.foldl Compiler.compile_query (p.clauses.foldl Compiler.compile_clause c)).queries := rfl
  rw [e, (create_initial_spine_spec _ _).2.1, foldl_queries_clauses]

theorem foldl_clauses_queries (cs : List Clause) : ∀ c : Compiler,
    (cs.foldl Compiler.compile_clause c).queries = c.queries := by
  induction cs with
  | nil => intro c; rfl
  | cons cl rest ih =>
    intro c
    simp only [List.foldl_cons]
    rw [ih (c.compile_clause cl)]
    exact (compile_clause_spec c cl).2.2.2.2.2.1

/-! ## Claims -/

/-- C1 (amended): compiling a compound term with functor f and k parameters
allocates its block at the current heap top, the whole compilation grows the
heap by exactly (2 + k) cells for this block plus the cells of nested compound
parameter blocks, and the block's leading Arity cell has data k + 1: the
argument count plus one, counting the functor cell as well. -/
theorem C1_compound_block_layout (c : Compiler) (name : SimpleTerm) (ps : TermList) :
    (c.compile_compound_term name ps).2 = c.heap.len
    ∧ (c.compile_compound_term name ps).1.heap.len
        = c.heap.len + ((2 + ps.length) + extraCells ps)
    ∧ (c.compile_compound_term name ps).1.heap.read (c.compile_compound_term name ps).2
        = ⟨HeapTag.Arity, ps.length + 1⟩ := by
  obtain ⟨g0, g1, _, _, _, _⟩ := compile_cct_A c name ps
  refine ⟨g0, by rw [g1], ?_⟩
  rw [g0]
  exact (compile_cct_D c name ps).1

/-- C1: the original claim is false: for the compound term a(b) (one
parameter, k = 1), the Arity cell's data is 2, not 1 — it counts the functor
cell as well. -/
theorem C1_counterexample :
    ((Compiler.new.compile_compound_term (SimpleTerm.Atom "a")
        (TermList.cons (Term.Simple (SimpleTerm.Atom "b")) TermList.nil)).1.heap.read 0).tag
      = HeapTag.Arity
    ∧ ¬ (((Compiler.new.compile_compound_term (SimpleTerm.Atom "a")
        (TermList.cons (Term.Simple (SimpleTerm.Atom "b")) TermList.nil)).1.heap.read 0).data
      = 1) := by
  decide

/-- C2 (amended): for every clause of every compiled program,
base ≤ neck ≤ base + length (neck is the absolute heap index just after the
head, not a length relative to base), and terms[0] is a Reference whose data
equals the descriptor's base. -/
theorem C2_clause_descriptor_bounds (p : Program) (k : Nat)
    (hk : k < p.clauses.length) :
    ((Compiler.new.compile p).clauses.getD k default).base
      ≤ ((Compiler.new.compile p).clauses.getD k default).neck
    ∧ ((Compiler.new.compile p).clauses.getD k default).neck
      ≤ ((Compiler.new.compile p).clauses.getD k default).base
        + ((Compiler.new.compile p).clauses.getD k default).length
    ∧ ((Compiler.new.compile p).clauses.getD k default).terms.getD 0 HeapEntry.empty
      = ⟨HeapTag.Reference, ((Compiler.new.compile p).clauses.getD k default).base⟩ := by
  have e := compile_clauses_eq Compiler.new p
  obtain ⟨f1, f2, f3⟩ := foldl_clauses_desc p.clauses Compiler.new
  have h3 := f3 k hk
  rw [show Compiler.new.clauses.length + k = k from by simp [Compiler.new]] at h3
  rw [e]
  exact ⟨h3.1, h3.2.1, h3.2.2.1⟩

def progC2 : Program :=
  ⟨[⟨Term.Simple (SimpleTerm.Atom "a"), []⟩, ⟨Term.Simple (SimpleTerm.Atom "b"), []⟩], []⟩

/-- C2: the original claim neck ≤ length is false: in a program of two atom
facts, the second clause has base 2, neck 4 (an absolute heap index) but
length 2. -/
theorem C2_counterexample :
    ((Compiler.new.compile progC2).clauses.getD 1 default).neck = 4
    ∧ ((Compiler.new.compile progC2).clauses.getD 1 default).length = 2
    ∧ ¬ (((Compiler.new.compile progC2).clauses.getD 1 default).neck
      ≤ ((Compiler.new.compile progC2).clauses.getD 1 default).length) := by
  decide

def progC2w : Program := ⟨[⟨Term.Simple (SimpleTerm.Atom "a"), []⟩], []⟩

theorem C2_witness :
    0 < progC2w.clauses.length
    ∧ (((Compiler.new.compile progC2w).clauses.getD 0 default).base
        ≤ ((Compiler.new.compile progC2w).clauses.getD 0 default).neck
      ∧ ((Compiler.new.compile progC2w).clauses.getD 0 default).neck
        ≤ ((Compiler.new.compile progC2w).clauses.getD 0 default).base
          + ((Compiler.new.compile progC2w).clauses.getD 0 default).length
      ∧ ((Compiler.new.compile progC2w).clauses.getD 0 default).terms.getD 0 HeapEntry.empty
        = ⟨HeapTag.Reference, ((Compiler.new.compile progC2w).clauses.getD 0 default).base⟩) :=
  ⟨by decide, C2_clause_descriptor_bounds progC2w 0 (by decide)⟩

/-- C3 (amended): head_subterms has one entry per cell of the head block
after the Arity cell — the functor cell plus the k argument slots, k + 1
entries in total, not k — each entry being the dereference of that cell in
the heap as it stands when the clause has been compiled: Variable/Unify
chains followed to their fixpoint, and a Reference dereferenced one further
hop. -/
theorem C3_head_subterms (p : Program) (k : Nat) (hk : k < p.clauses.length) :
    (((Compiler.new.compile p).clauses.getD k default).head_subterms.length
      = headArityOf ((p.clauses.getD k default).head))
    ∧ (∀ (c : Compiler) (cl : Clause),
      ((c.compile_clause cl).clauses.getD c.clauses.length default).head_subterms
        = (List.range (headArityOf cl.head)).map
          (fun i =>
            let entry := (c.compile_clause cl).deref
              ((c.compile_clause cl).heap.read (c.heap.len + 1 + i))
            if entry.tag = HeapTag.Reference then (c.compile_clause cl).deref_once entry
            else entry)) := by
  constructor
  · have e := compile_clauses_eq Compiler.new p
    obtain ⟨f1, f2, f3⟩ := foldl_clauses_desc p.clauses Compiler.new
    have h3 := f3 k hk
    rw [show Compiler.new.clauses.length + k = k from by simp [Compiler.new]] at h3
    rw [e]
    exact h3.2.2.2
  · intro c cl
    obtain ⟨⟨d, restTerms, hcl, hbase, hneck, hlength, hterms, hsub⟩,
      c2, c3, c4, c5, c6, c7, c8, c9, c10, c11⟩ := compile_clause_spec c cl
    have hget : (c.compile_clause cl).clauses.getD c.clauses.length default = d := by
      rw [hcl]
      exact getD_append_self_aux c.clauses d
    rw [hget, hsub, get_subterms_def]
    show (List.range (((c.compile_clause cl).heap.read c.heap.len).data)).map
        (fun i =>
          let entry := (c.compile_clause cl).deref
            ((c.compile_clause cl).heap.read (c.heap.len + 1 + i))
          if entry.tag = HeapTag.Reference then (c.compile_clause cl).deref_once entry
          else entry)
      = _
    rw [c4]

def progC3 : Program :=
  ⟨[⟨Term.Compound (SimpleTerm.Atom "p")
      (TermList.cons (Term.Simple (SimpleTerm.Atom "a")) TermList.nil), []⟩], []⟩

/-- C3: the original claim is false: for the clause p(a). with one argument
slot (k = 1), head_subterms has 2 entries (the functor entry included), not
1. -/
theorem C3_counterexample :
    ((Compiler.new.compile progC3).clauses.getD 0 default).head_subterms.length = 2
    ∧ ¬ (((Compiler.new.compile progC3).clauses.getD 0 default).head_subterms.length = 1) := by
  decide

theorem C3_witness :
    0 < progC3.clauses.length
    ∧ ((Compiler.new.compile progC3).clauses.getD 0 default).head_subterms.length
      = headArityOf ((progC3.clauses.getD 0 default).head) :=
  ⟨by decide, (C3_head_subterms progC3 0 (by decide)).1⟩

/-- C4: within one clause, the first occurrence of a variable name compiles
to a Variable entry whose data is its own heap index and is recorded in the
clause-variable map; every later occurrence in that clause compiles to a
Unify entry whose data is the first occurrence's index (which holds a
self-referencing Variable cell); and after compiling a clause, every index
in its clause-variable map is at least the old heap top, so the same name in
a different clause gets a fresh, independently allocated index with no link
to the other clause's cells. -/
theorem C4_variable_occurrences :
    (∀ (c : Compiler) (v : String) (index : Nat),
      lookupAssoc c.current_clause_variables v = none → index < c.heap.len →
      (c.compile_simple_term_no_alloc (SimpleTerm.Variable v) index).heap.read index
          = ⟨HeapTag.Variable, index⟩
      ∧ lookupAssoc (c.compile_simple_term_no_alloc (SimpleTerm.Variable v) index).current_clause_variables v
          = some index)
    ∧ (∀ (c : Compiler) (v : String) (index i : Nat),
      lookupAssoc c.current_clause_variables v = some i → index < c.heap.len → MapOK c →
      (c.compile_simple_term_no_alloc (SimpleTerm.Variable v) index).heap.read index
          = ⟨HeapTag.Unify, i⟩
      ∧ c.heap.read i = ⟨HeapTag.Variable, i⟩)
    ∧ (∀ (c : Compiler) (cl : Clause) (v : String) (m : Nat),
      lookupAssoc (c.compile_clause cl).current_clause_variables v = some m →
      c.heap.len ≤ m) := by
  refine ⟨?_, ?_, ?_⟩
  · intro c v index hnone hidx
    exact csta_var_first c v index hnone hidx
  · intro c v index i hsome hidx hm
    obtain ⟨h1, h2⟩ := csta_var_seen c v index i hsome hidx
    exact ⟨h1, (hm v i hsome).2⟩
  · intro c cl v m hx
    exact (compile_clause_spec c cl).2.2.2.2.1 v m hx

def heapC4 : Heap := ⟨[HeapEntry.empty, HeapEntry.empty]⟩

def compC4 : Compiler := ⟨heapC4, [], SymbolTable.new, [], [], [], []⟩

theorem C4_witness :
    (lookupAssoc compC4.current_clause_variables "X" = none ∧ 0 < compC4.heap.len
      ∧ (compC4.compile_simple_term_no_alloc (SimpleTerm.Variable "X") 0).heap.read 0
          = ⟨HeapTag.Variable, 0⟩
      ∧ lookupAssoc (compC4.compile_simple_term_no_alloc (SimpleTerm.Variable "X") 0).current_clause_variables "X"
          = some 0)
    ∧ ((Compiler.new.compile_clause ⟨Term.Simple (SimpleTerm.Variable "X"), []⟩).current_clause_variables
        = [("X", 1)]
      ∧ Compiler.new.heap.len ≤ 1) := by
  constructor
  · refine ⟨by decide, by decide, ?_⟩
    exact (C4_variable_occurrences.1 compC4 "X" 0 (by decide) (by decide))
  · refine ⟨by decide, ?_⟩
    exact C4_variable_occurrences.2.2 Compiler.new ⟨Term.Simple (SimpleTerm.Variable "X"), []⟩
      "X" 1 (by decide)

/-- C5: a compound parameter nested in a compound term is compiled into its
own block elsewhere on the heap, starting at or after the end of the
parent's 2 + k cell block (disjoint from it), and the parent's parameter
slot holds a Reference whose data is the index of that nested block's first
cell, which is its Arity cell — not an index into the middle of a block and
not an inline copy. -/
theorem C5_nested_compound_blocks (c : Compiler) (name : SimpleTerm) (ps : TermList)
    (j : Nat) (n2 : SimpleTerm) (ps2 : TermList)
    (hj : ps.getIdx j = some (Term.Compound n2 ps2)) :
    (c.compile_compound_term name ps).1.heap.read (c.heap.len + 2 + j)
      = ⟨HeapTag.Reference, c.heap.len + (2 + ps.length) + extraCells (TermList.take j ps)⟩
    ∧ c.heap.len + (2 + ps.length)
      ≤ c.heap.len + (2 + ps.length) + extraCells (TermList.take j ps)
    ∧ (c.compile_compound_term name ps).1.heap.read
        (c.heap.len + (2 + ps.length) + extraCells (TermList.take j ps))
      = ⟨HeapTag.Arity, ps2.length + 1⟩ := by
  obtain ⟨h1, h2⟩ := (compile_cct_D c name ps).2 j n2 ps2 hj
  exact ⟨h1, by omega, h2⟩

theorem C5_witness :
    (TermList.cons (Term.Compound (SimpleTerm.Atom "q")
        (TermList.cons (Term.Simple (SimpleTerm.Atom "a")) TermList.nil)) TermList.nil).getIdx 0
      = some (Term.Compound (SimpleTerm.Atom "q")
        (TermList.cons (Term.Simple (SimpleTerm.Atom "a")) TermList.nil))
    ∧ ((Compiler.new.compile_compound_term (SimpleTerm.Atom "p")
        (TermList.cons (Term.Compound (SimpleTerm.Atom "q")
          (TermList.cons (Term.Simple (SimpleTerm.Atom "a")) TermList.nil)) TermList.nil)).1.heap.read
        (Compiler.new.heap.len + 2 + 0)
      = ⟨HeapTag.Reference, Compiler.new.heap.len + (2 + (TermList.cons (Term.Compound (SimpleTerm.Atom "q")
          (TermList.cons (Term.Simple (SimpleTerm.Atom "a")) TermList.nil)) TermList.nil).length)
          + extraCells (TermList.take 0 (TermList.cons (Term.Compound (SimpleTerm.Atom "q")
          (TermList.cons (Term.Simple (SimpleTerm.Atom "a")) TermList.nil)) TermList.nil))⟩) := by
  constructor
  · rfl
  · exact (C5_nested_compound_blocks Compiler.new (SimpleTerm.Atom "p")
      (TermList.cons (Term.Compound (SimpleTerm.Atom "q")
        (TermList.cons (Term.Simple (SimpleTerm.Atom "a")) TermList.nil)) TermList.nil)
      0 (SimpleTerm.Atom "q")
      (TermList.cons (Term.Simple (SimpleTerm.Atom "a")) TermList.nil) rfl).1

/-- C6: compiling a clause with an empty body whose head is a bare atom
appends exactly two heap entries: an Arity entry with data 1 followed by a
Constant entry whose data is the atom's symbol-table id (and looking that id
up in the symbol table returns the atom). -/
theorem C6_bare_atom_fact (c : Compiler) (a : String) (hs : SymGood c.symbol_table) :
    (c.compile_clause ⟨Term.Simple (SimpleTerm.Atom a), []⟩).heap.len = c.heap.len + 2
    ∧ (∀ i, i < c.heap.len →
        (c.compile_clause ⟨Term.Simple (SimpleTerm.Atom a), []⟩).heap.read i = c.heap.read i)
    ∧ (c.compile_clause ⟨Term.Simple (SimpleTerm.Atom a), []⟩).heap.read c.heap.len
        = ⟨HeapTag.Arity, 1⟩
    ∧ (c.compile_clause ⟨Term.Simple (SimpleTerm.Atom a), []⟩).heap.read (c.heap.len + 1)
        = ⟨HeapTag.Constant, (c.symbol_table.intern a).2⟩
    ∧ (c.compile_clause ⟨Term.Simple (SimpleTerm.Atom a), []⟩).symbol_table.get
        (c.symbol_table.intern a).2 = a := by
  obtain ⟨_, c2, c3, c4, _, _, _, _, _, _, _⟩ :=
    compile_clause_spec c ⟨Term.Simple (SimpleTerm.Atom a), []⟩
  obtain ⟨t1, t2⟩ := compile_top_term_atom ({ c with current_clause_variables := [] } : Compiler) a
  have eheap : (c.compile_clause ⟨Term.Simple (SimpleTerm.Atom a), []⟩).heap
      = (({ c with current_clause_variables := [] } : Compiler).compile_top_term
          (Term.Simple (SimpleTerm.Atom a))).heap := rfl
  have esym : (c.compile_clause ⟨Term.Simple (SimpleTerm.Atom a), []⟩).symbol_table
      = (({ c with current_clause_variables := [] } : Compiler).compile_top_term
          (Term.Simple (SimpleTerm.Atom a))).symbol_table := rfl
  refine ⟨c2, c3, c4, ?_, ?_⟩
  · rw [eheap]
    exact t1
  · rw [esym, show (({ c with current_clause_variables := [] } : Compiler).compile_top_term
        (Term.Simple (SimpleTerm.Atom a))).symbol_table
      = (c.symbol_table.intern a).1 from t2]
    exact intern_get c.symbol_table a hs

theorem C6_witness :
    SymGood Compiler.new.symbol_table
    ∧ (Compiler.new.compile_clause ⟨Term.Simple (SimpleTerm.Atom "a"), []⟩).heap.len
        = Compiler.new.heap.len + 2
    ∧ (Compiler.new.compile_clause ⟨Term.Simple (SimpleTerm.Atom "a"), []⟩).heap.read
        Compiler.new.heap.len = ⟨HeapTag.Arity, 1⟩
    ∧ (Compiler.new.compile_clause ⟨Term.Simple (SimpleTerm.Atom "a"), []⟩).heap.read
        (Compiler.new.heap.len + 1)
        = ⟨HeapTag.Constant, (Compiler.new.symbol_table.intern "a").2⟩
    ∧ (Compiler.new.compile_clause ⟨Term.Simple (SimpleTerm.Atom "a"), []⟩).symbol_table.get
        (Compiler.new.symbol_table.intern "a").2 = "a" := by
  have h := C6_bare_atom_fact Compiler.new "a" symGood_new
  exact ⟨symGood_new, h.1, h.2.2.1, h.2.2.2.1, h.2.2.2.2⟩

/-- C7: interning is idempotent and bijective on the interned set: interning
keeps the table consistent, looking up the returned id gives back the exact
atom text, re-interning the same text changes nothing and returns the same
id, a never-before-seen atom is assigned the next sequential id (ids are
dense, 0-based, in first-occurrence order), two texts with the same id are
equal, an assigned id survives any later interning, and a whole compilation
started from a fresh compiler keeps the table consistent. -/
theorem C7_interning :
    (∀ (t : SymbolTable) (s : String), SymGood t →
      SymGood (t.intern s).1
      ∧ (t.intern s).1.get (t.intern s).2 = s
      ∧ (t.intern s).1.intern s = ((t.intern s).1, (t.intern s).2)
      ∧ (t.get_index s = none →
          (t.intern s).2 = t.symbols.length ∧ (t.intern s).1.symbols = t.symbols ++ [s])
      ∧ (∀ s2 i, t.get_index s = some i → t.get_index s2 = some i → s = s2))
    ∧ (∀ (t : SymbolTable) (s s2 : String) (i : Nat),
        t.get_index s2 = some i → (t.intern s).1.get_index s2 = some i)
    ∧ (∀ p : Program, SymGood (Compiler.new.compile p).symbol_table) := by
  refine ⟨?_, ?_, ?_⟩
  · intro t s hg
    refine ⟨symGood_intern t s hg, intern_get t s hg, ?_, ?_, ?_⟩
    · exact intern_of_some (t.intern s).1 s (t.intern s).2 (intern_get_index t s)
    · intro hnone
      exact intern_of_none t s hnone
    · intro s2 i h1 h2
      exact symGood_inj t s s2 i hg h1 h2
  · intro t s s2 i h
    exact symExtends_intern t s s2 i h
  · intro p
    exact (compile_inv Compiler.new p inv_new).2.2

theorem C7_witness :
    SymGood SymbolTable.new
    ∧ (SymGood (SymbolTable.new.intern "f").1
      ∧ (SymbolTable.new.intern "f").1.get (SymbolTable.new.intern "f").2 = "f"
      ∧ (SymbolTable.new.intern "f").1.intern "f"
          = ((SymbolTable.new.intern "f").1, (SymbolTable.new.intern "f").2)
      ∧ (SymbolTable.new.get_index "f" = none →
          (SymbolTable.new.intern "f").2 = SymbolTable.new.symbols.length
          ∧ (SymbolTable.new.intern "f").1.symbols = SymbolTable.new.symbols ++ ["f"])
      ∧ (∀ s2 i, SymbolTable.new.get_index "f" = some i
          → SymbolTable.new.get_index s2 = some i → "f" = s2)) :=
  ⟨symGood_new, C7_interning.1 SymbolTable.new "f" symGood_new⟩

/-- C8: after compilation, every compiled query has an initial Spine whose
goals are exactly the query's Reference terms in order, whose
unifiable_clauses is exactly the list of all clause indices 0..n-1 in order,
whose num_unified_clauses is 0, and whose base is the heap length at the end
of compilation. -/
theorem C8_initial_spines (p : Program) (q : QueryDescriptor)
    (hq : q ∈ (Compiler.new.compile p).queries) :
    ∃ sp ∈ (Compiler.new.compile p).spines,
      sp.goals = q.terms
      ∧ (∀ e ∈ sp.goals, e.tag = HeapTag.Reference)
      ∧ sp.unifiable_clauses = List.range (Compiler.new.compile p).clauses.length
      ∧ sp.num_unified_clauses = 0
      ∧ sp.base = (Compiler.new.compile p).heap.len := by
  have e : Compiler.new.compile p =
      (p.queries.foldl Compiler.compile_query (p.clauses.foldl Compiler.compile_clause Compiler.new)).create_initial_spine
        (p.queries.foldl Compiler.compile_query (p.clauses.foldl Compiler.compile_clause Compiler.new)).queries := rfl
  obtain ⟨e1, e2, e3, e4, e5, e6⟩ := create_initial_spine_spec
    (p.queries.foldl Compiler.compile_query (p.clauses.foldl Compiler.compile_clause Compiler.new))
    (p.queries.foldl Compiler.compile_query (p.clauses.foldl Compiler.compile_clause Compiler.new)).queries
  have hq' : q ∈ (p.queries.foldl Compiler.compile_query
      (p.clauses.foldl Compiler.compile_clause Compiler.new)).queries := by
    rw [e] at hq
    rw [← e3]
    exact hq
  have href : QTermsRef q := by
    refine foldl_queries_ref p.queries (p.clauses.foldl Compiler.compile_clause Compiler.new)
      ?_ q hq'
    intro q2 hq2
    rw [foldl_clauses_queries] at hq2
    cases hq2
  refine ⟨Spine.new
      (p.queries.foldl Compiler.compile_query (p.clauses.foldl Compiler.compile_clause Compiler.new)).heap.len
      (p.queries.foldl Compiler.compile_query (p.clauses.foldl Compiler.compile_clause Compiler.new)).trail.length
      q.terms
      (List.range (p.queries.foldl Compiler.compile_query (p.clauses.foldl Compiler.compile_clause Compiler.new)).clauses.length)
      0, ?_, rfl, ?_, ?_, rfl, ?_⟩
  · rw [e]
    exact e6 q hq'
  · intro e2 he2
    exact href e2 he2
  · show List.range _ = List.range (Compiler.new.compile p).clauses.length
    rw [e, e2]
  · show _ = (Compiler.new.compile p).heap.len
    rw [e, e1]
    rfl

def progC8 : Program :=
  ⟨[⟨Term.Simple (SimpleTerm.Atom "a"), []⟩],
   [⟨[Term.Simple (SimpleTerm.Atom "a")]⟩]⟩

theorem C8_witness :
    (⟨2, 2, [⟨HeapTag.Reference, 2⟩]⟩ : QueryDescriptor) ∈ (Compiler.new.compile progC8).queries
    ∧ ∃ sp ∈ (Compiler.new.compile progC8).spines,
      sp.goals = (⟨2, 2, [⟨HeapTag.Reference, 2⟩]⟩ : QueryDescriptor).terms
      ∧ (∀ e ∈ sp.goals, e.tag = HeapTag.Reference)
      ∧ sp.unifiable_clauses = List.range (Compiler.new.compile progC8).clauses.length
      ∧ sp.num_unified_clauses = 0
      ∧ sp.base = (Compiler.new.compile progC8).heap.len :=
  ⟨by decide, C8_initial_spines progC8 ⟨2, 2, [⟨HeapTag.Reference, 2⟩]⟩ (by decide)⟩

/-- C9: alloc(n) returns the heap length before the call, the length
afterwards is exactly n larger, each new slot holds an Uninitialized entry,
and every entry below the returned index is unchanged. -/
theorem C9_alloc_bump (h : Heap) (n : Nat) :
    (h.alloc n).2 = h.len
    ∧ (h.alloc n).1.len = h.len + n
    ∧ (∀ i, i < n → (h.alloc n).1.read (h.len + i) = HeapEntry.empty)
    ∧ (∀ i, i < h.len → (h.alloc n).1.read i = h.read i) := by
  refine ⟨Heap.alloc_snd h n, Heap.len_alloc h n, ?_, ?_⟩
  · intro i hi
    exact Heap.read_alloc_new h n (h.len + i) (by omega)
  · intro i hi
    exact Heap.read_alloc_old h n i hi

def heapC9 : Heap := ⟨[⟨HeapTag.Arity, 1⟩]⟩

theorem C9_witness :
    (heapC9.alloc 2).2 = heapC9.len
    ∧ (heapC9.alloc 2).1.len = heapC9.len + 2
    ∧ (heapC9.alloc 2).1.read (heapC9.len + 1) = HeapEntry.empty
    ∧ (heapC9.alloc 2).1.read 0 = heapC9.read 0 :=
  ⟨(C9_alloc_bump heapC9 2).1, (C9_alloc_bump heapC9 2).2.1,
   (C9_alloc_bump heapC9 2).2.2.1 1 (by decide),
   (C9_alloc_bump heapC9 2).2.2.2 0 (by decide)⟩

/-- C10 (amended): after compiling any program, every Variable entry has
data equal to its own index, and every Unify entry's data addresses a
self-referencing Variable entry (the data need not be smaller than the
Unify cell's own index); consequently deref stabilizes within two loop
iterations on every entry of a compiled heap: more fuel never changes the
result, and the result is a loop exit (a non-variable entry or a deref_once
fixpoint). -/
theorem C10_compiled_heap_wellformed (p : Program) (i : Nat) :
    (((Compiler.new.compile p).heap.read i).tag = HeapTag.Variable →
      ((Compiler.new.compile p).heap.read i).data = i)
    ∧ (((Compiler.new.compile p).heap.read i).tag = HeapTag.Unify →
      (Compiler.new.compile p).heap.read (((Compiler.new.compile p).heap.read i).data)
        = ⟨HeapTag.Variable, ((Compiler.new.compile p).heap.read i).data⟩)
    ∧ (∀ f, 2 ≤ f →
      (Compiler.new.compile p).derefFuel ((Compiler.new.compile p).heap.read i) f
        = (Compiler.new.compile p).derefFuel ((Compiler.new.compile p).heap.read i) 2)
    ∧ (((Compiler.new.compile p).derefFuel ((Compiler.new.compile p).heap.read i) 2).is_var_or_unify
          = false
      ∨ (Compiler.new.compile p).deref_once
          ((Compiler.new.compile p).derefFuel ((Compiler.new.compile p).heap.read i) 2)
        = (Compiler.new.compile p).derefFuel ((Compiler.new.compile p).heap.read i) 2) := by
  have hg : GoodHeap (Compiler.new.compile p).heap :=
    (compile_inv Compiler.new p inv_new).1
  obtain ⟨g1, g2, g3⟩ := hg i
  obtain ⟨st1, st2⟩ := deref_stable_of_good (Compiler.new.compile p) hg i
  exact ⟨g1, g2, st1, st2⟩

def progC10 : Program :=
  ⟨[⟨Term.Compound (SimpleTerm.Atom "p")
      (TermList.cons (Term.Compound (SimpleTerm.Atom "q")
        (TermList.cons (Term.Simple (SimpleTerm.Variable "X")) TermList.nil))
      (TermList.cons (Term.Simple (SimpleTerm.Variable "X")) TermList.nil)), []⟩], []⟩

/-- C10: the original claim is false: in the clause p(q(X), X). the second
occurrence of X compiles to a Unify entry at heap index 3 whose data is 6 —
greater than its own index, not strictly less. -/
theorem C10_counterexample :
    ((Compiler.new.compile progC10).heap.read 3).tag = HeapTag.Unify
    ∧ ((Compiler.new.compile progC10).heap.read 3).data = 6
    ∧ ¬ (((Compiler.new.compile progC10).heap.read 3).data < 3) := by
  decide

theorem C10_witness :
    ((Compiler.new.compile progC10).heap.read 3).tag = HeapTag.Unify
    ∧ (Compiler.new.compile progC10).heap.read (((Compiler.new.compile progC10).heap.read 3).data)
        = ⟨HeapTag.Variable, ((Compiler.new.compile progC10).heap.read 3).data⟩
    ∧ (Compiler.new.compile progC10).derefFuel ((Compiler.new.compile progC10).heap.read 3) 7
        = (Compiler.new.compile progC10).derefFuel ((Compiler.new.compile progC10).heap.read 3) 2 := by
  refine ⟨by decide, ?_, ?_⟩
  · exact (C10_compiled_heap_wellformed progC10 3).2.1 (by decide)
  · exact (C10_compiled_heap_wellformed progC10 3).2.2.1 7 (by decide)
